import Mathlib

/-!
Verification development for the InvestDoc generation-orchestration core.

The TypeScript source is shallowly embedded:
* pure functions become Lean functions on `List Char` / `String` / `ℚ`;
* the in-memory job registry and the asynchronous pipeline become an explicit
  event/step semantics on a `Job` record (each event mirrors one synchronous
  block of the source; `await` points are the places where other events may
  interleave);
* calls to the external completion service (`processDocumentWithLLM`) and to
  `JSON.parse` are modelled as oracle parameters, since their behaviour is
  outside the program;
* JavaScript `Date` values become `ℕ` tick parameters;
* JavaScript numbers are modelled as exact rationals `ℚ` (the progress
  arithmetic of the pipeline uses only constants and monotone operations, so
  no property below depends on floating-point rounding).
-/

/-! ## Data model (from `types.ts`) -/

/-- `TemplateSection.type` / `GeneratedSection.type`:
`"heading" | "text" | "table" | "chart" | "image"`. -/
inductive SectionType where
  | heading | text | table | chart | image
deriving DecidableEq, Repr

/-- `GeneratedSection.reviewStatus`: `"pending" | "reviewed" | "approved" | "rejected"`. -/
inductive ReviewStatus where
  | pending | reviewed | approved | rejected
deriving DecidableEq, Repr

/-- `GeneratedContent.status`: `"draft" | "reviewing" | "completed"`. -/
inductive ContentStatus where
  | draft | reviewing | completed
deriving DecidableEq, Repr

/-- `GenerationJob.status`: `"queued" | "processing" | "completed" | "failed"`. -/
inductive JobStatus where
  | queued | processing | completed | failed
deriving DecidableEq, Repr

/-- `ContentMetadata` from `types.ts`; `otherProperties` is the open string map. -/
structure ContentMetadata where
  assetName : String
  assetType : String
  location : String
  client : String
  date : String
  otherProperties : List (String × String)
deriving DecidableEq, Repr

/-- `SourceDocument` from `types.ts` (the `uploadedAt : Date` field is a tick). -/
structure SourceDocument where
  id : String
  name : String
  contentType : String
  content : String
  uploadedAt : ℕ
  size : ℕ
deriving DecidableEq, Repr

/-- `TemplateSection` from `types.ts`: a recursive section-forest node.
Fields in source order: `id`, `title`, `content`, `type`, `level?`, `children?`
(an absent `children` array behaves as `[]` everywhere in the source). -/
inductive TemplateSection where
  | mk (id title content : String) (type : SectionType)
       (level : Option ℕ) (children : List TemplateSection)

def TemplateSection.id : TemplateSection → String
  | .mk i _ _ _ _ _ => i

def TemplateSection.title : TemplateSection → String
  | .mk _ t _ _ _ _ => t

def TemplateSection.content : TemplateSection → String
  | .mk _ _ c _ _ _ => c

def TemplateSection.type : TemplateSection → SectionType
  | .mk _ _ _ ty _ _ => ty

def TemplateSection.level : TemplateSection → Option ℕ
  | .mk _ _ _ _ l _ => l

def TemplateSection.children : TemplateSection → List TemplateSection
  | .mk _ _ _ _ _ c => c

/-- `TemplateStructure` from `types.ts`. -/
structure TemplateStructure where
  sections : List TemplateSection

/-- `Template` from `types.ts`; the optional parsed structure field
(`structure?: TemplateStructure`) is called `tstructure` here because
`structure` is a Lean keyword. -/
structure Template where
  id : String
  name : String
  contentType : String
  content : String
  uploadedAt : ℕ
  size : ℕ
  tstructure : Option TemplateStructure

/-- `template.structure?.sections || []`. -/
def Template.sectionsOrEmpty (t : Template) : List TemplateSection :=
  match t.tstructure with
  | some st => st.sections
  | none => []

/-- `SourceReference` from `types.ts`. -/
structure SourceReference where
  documentId : String
  page : Option ℕ
  excerpt : Option String
deriving DecidableEq, Repr

/-- `GeneratedSection` from `types.ts` (the optional `reviewComments` field is
never written by the core and is omitted). -/
structure GeneratedSection where
  id : String
  templateSectionId : String
  title : String
  content : String
  type : SectionType
  sourceReferences : List SourceReference
  reviewStatus : ReviewStatus
deriving DecidableEq, Repr

/-- `GeneratedContent` from `types.ts`, extended with the `validationResults`
map that `processJob` attaches to the final content object
(`{ ...enhancedContent, validationResults, updatedAt }`). -/
structure GeneratedContent where
  id : String
  templateId : String
  sections : List GeneratedSection
  createdAt : ℕ
  updatedAt : ℕ
  status : ContentStatus
  metadata : ContentMetadata
  validationResults : List (String × List String)
deriving DecidableEq, Repr

/-! ## String primitives

JavaScript string operations are embedded on `List Char`:
`toLowerCase` maps `Char.toLower`, `String.prototype.includes` is list-infix,
`\w` is `[A-Za-z0-9_]` and `\s` is whitespace. -/

/-- `text.toLowerCase()` as a character list. -/
def lowerChars (s : String) : List Char :=
  s.data.map Char.toLower

/-- `hay.includes(needle)` on already-prepared character lists. -/
def includesSeg (hay needle : List Char) : Bool :=
  decide (needle <:+: hay)

/-- A `\w` character: `[A-Za-z0-9_]`. -/
def isWordChar (c : Char) : Bool :=
  c.isAlpha || c.isDigit || c = '_'

/-- The fixed stop-word set of `extractKeywords` (`commonWords`). -/
def commonWords : List (List Char) :=
  ["this", "that", "these", "those", "there", "their", "they", "with",
   "from", "have", "will", "would", "should", "could", "about"].map String.data

/-- `text.split(/\s+/)` after the `replace(/[^\w\s]/g, ' ')` pass: split the
character list at whitespace (empty fragments are dropped by the later
`length > 3` filter, matching the JavaScript result). -/
def splitWs : List Char → List (List Char)
  | [] => [[]]
  | c :: rest =>
      if c.isWhitespace then
        [] :: splitWs rest
      else
        match splitWs rest with
        | [] => [[c]]
        | w :: ws => (c :: w) :: ws

/-- `extractKeywords` from `content-generation.ts`: lowercase, replace
non-word non-space characters by a space, split on whitespace, keep tokens
longer than 3 characters, drop stop words, deduplicate keeping first
occurrences (`[...new Set(...)]`). -/
def extractKeywords (text : String) : List (List Char) :=
  let cleaned := (lowerChars text).map fun c =>
    if isWordChar c || c.isWhitespace then c else ' '
  let words := (splitWs cleaned).filter fun w => 3 < w.length
  (words.filter fun w => !commonWords.contains w).eraseDups

/-! ## Relevance Matcher (`matchDocumentsToSections`) -/

/-- The per-document relevance score computed inside `processSection`:
`+5` if the lowercased document content contains the lowercased section
title as a substring, `+1` per extracted keyword of the section body that
occurs in the lowercased document content. -/
def scoreDoc (sectionTitle sectionContent : String) (doc : SourceDocument) : ℕ :=
  (if includesSeg (lowerChars doc.content) (lowerChars sectionTitle) then 5 else 0)
  + ((extractKeywords sectionContent).filter fun kw =>
      includesSeg (lowerChars doc.content) (kw.map Char.toLower)).length

/-- `docScores[doc.id] = score`: JavaScript object-key assignment keeps the
first-insertion position of an existing key and appends a new key. -/
def upsertScore (m : List (String × ℕ)) (k : String) (v : ℕ) : List (String × ℕ) :=
  if m.any fun p => p.1 = k then
    m.map fun p => if p.1 = k then (k, v) else p
  else
    m ++ [(k, v)]

/-- The `docScores` record built by the document loop of `processSection`,
as its `Object.entries` list (insertion order). -/
def docScores (sectionTitle sectionContent : String)
    (sourceDocuments : List SourceDocument) : List (String × ℕ) :=
  sourceDocuments.foldl
    (fun m doc => upsertScore m doc.id (scoreDoc sectionTitle sectionContent doc)) []

/-- `sortedDocs` of `processSection`: stable sort by score descending
(`(a, b) => b[1] - a[1]`), drop zero scores, keep the ids.  JavaScript
`Array.prototype.sort` is stable, so a stable insertion sort is the
extensionally identical embedding. -/
def sortedDocs (scores : List (String × ℕ)) : List String :=
  (((scores.insertionSort fun a b => b.2 ≤ a.2).filter fun p => 0 < p.2).map
    fun p => p.1)

/-- The ranked document-id list `processSection` assigns to one section. -/
def rankedDocsFor (sectionTitle sectionContent : String)
    (sourceDocuments : List SourceDocument) : List String :=
  sortedDocs (docScores sectionTitle sectionContent sourceDocuments)

/-- The relevance score of the document a given id resolves to (0 when the
id resolves to no document). -/
def scoreOfId (sectionTitle sectionContent : String)
    (docs : List SourceDocument) (id : String) : ℕ :=
  match docs.find? fun d => d.id = id with
  | some d => scoreDoc sectionTitle sectionContent d
  | none => 0

mutual
/-- `processSection` visits a node and then recurses into all children;
the resulting `(sectionId, rankedIds)` pairs in visit order (depth-first). -/
def processSection (sourceDocuments : List SourceDocument) :
    TemplateSection → List (String × List String)
  | .mk i t c _ _ children =>
      (i, rankedDocsFor t c sourceDocuments)
        :: processSectionList sourceDocuments children

/-- The child loop of `processSection`. -/
def processSectionList (sourceDocuments : List SourceDocument) :
    List TemplateSection → List (String × List String)
  | [] => []
  | s :: rest =>
      processSection sourceDocuments s ++ processSectionList sourceDocuments rest
end

/-- `matchDocumentsToSections`: the `sectionToDocMap` as the list of `set`
calls in visit order (later entries overwrite earlier ones, see `mapGet`). -/
def matchDocumentsToSections (template : Template)
    (sourceDocuments : List SourceDocument) : List (String × List String) :=
  processSectionList sourceDocuments template.sectionsOrEmpty

/-- `Map.get`: the value of the last `set` for a key. -/
def mapGet (m : List (String × List String)) (k : String) : Option (List String) :=
  (m.reverse.find? fun p => p.1 = k).map fun p => p.2

mutual
/-- All section nodes of a template's forest, any depth (the set of nodes
`processSection` visits). -/
def allSections : TemplateSection → List TemplateSection
  | .mk i t c ty lv children =>
      .mk i t c ty lv children :: allSectionsList children

def allSectionsList : List TemplateSection → List TemplateSection
  | [] => []
  | s :: rest => allSections s ++ allSectionsList rest
end

def Template.allSectionNodes (t : Template) : List TemplateSection :=
  allSectionsList t.sectionsOrEmpty

/-! ## Section Generator (`generateSectionContent`) -/

/-- JavaScript `s.substring(0, n)`. -/
def substringTo (s : String) (n : ℕ) : String :=
  ⟨s.data.take n⟩

/-- The section-resolution loop at the top of `generateSectionContent`:
scan top-level sections; a match on a top-level id breaks out, a match on an
immediate child sets the local variable but lets the outer loop continue (so
a later match overwrites it).  `acc` is the current value of the `section`
variable. -/
def findSectionScan (sectionId : String) :
    List TemplateSection → Option TemplateSection → Option TemplateSection
  | [], acc => acc
  | s :: rest, acc =>
      if s.id = sectionId then some s
      else
        findSectionScan sectionId rest
          (match s.children.find? fun ch => ch.id = sectionId with
           | some ch => some ch
           | none => acc)

/-- Candidate-document selection of `generateSectionContent`: the documents
whose ids are relevance-ranked, reordered by rank position
(`sort` by `relevantDocIds.indexOf`, a stable sort embedded as
`insertionSort`), then if fewer than 3, padded with not-yet-selected
documents in original order (`otherDocs.slice(0, 3 - relevantDocs.length)`). -/
def candidateDocs (sourceDocuments : List SourceDocument)
    (relevantDocIds : List String) : List SourceDocument :=
  let relevantDocs :=
    (sourceDocuments.filter fun doc => relevantDocIds.contains doc.id).insertionSort
      fun a b => relevantDocIds.indexOf a.id ≤ relevantDocIds.indexOf b.id
  if relevantDocs.length < 3 then
    relevantDocs ++
      ((sourceDocuments.filter fun doc => !relevantDocIds.contains doc.id).take
        (3 - relevantDocs.length))
  else relevantDocs

/-- The `SourceReference` recorded per selected document:
`{ documentId: doc.id, excerpt: doc.content.substring(0, 300) + "..." }`. -/
def docReference (doc : SourceDocument) : SourceReference :=
  { documentId := doc.id, page := none, excerpt := some (substringTo doc.content 300 ++ "...") }

/-- The per-document context block of `relevantSourceContent`. -/
def docContextBlock (doc : SourceDocument) : String :=
  "Document: " ++ doc.name ++ "\n" ++ substringTo doc.content 1000 ++ "...\n\n"

/-- `relevantSourceContent`: the blocks joined with `'\n'`. -/
def relevantSourceContent (docs : List SourceDocument) : String :=
  String.intercalate "\n" (docs.map docContextBlock)

/-- `generateSectionContent`.  The external completion call
`processDocumentWithLLM(content, prompt, model)` is an oracle `llm` applied to
the assembled source context (the prompt also embeds the section and
metadata; the claims below never depend on the prompt text, so the oracle
receives the context, the section and the metadata directly).  `newId` stands
for the fresh `uuidv4()`.  A missing section id raises
`Section with ID ... not found in template`. -/
def generateSectionContent
    (llm : String → TemplateSection → ContentMetadata → String)
    (newId : String)
    (template : Template) (sourceDocuments : List SourceDocument)
    (sectionId : String) (metadata : ContentMetadata)
    (documentMatches : List (String × List String)) :
    Except String GeneratedSection :=
  match findSectionScan sectionId template.sectionsOrEmpty none with
  | none => .error ("Section with ID " ++ sectionId ++ " not found in template")
  | some sec =>
      let relevantDocIds := (mapGet documentMatches sectionId).getD []
      let relevantDocs := candidateDocs sourceDocuments relevantDocIds
      let sourceReferences := relevantDocs.map docReference
      let generatedContent :=
        llm (relevantSourceContent relevantDocs) sec metadata
      .ok
        { id := newId
          templateSectionId := sec.id
          title := sec.title
          content := generatedContent
          type := sec.type
          sourceReferences := sourceReferences
          reviewStatus := .pending }

/-! ## Content Pipeline (`generateCompleteContent`, `validateContentCoherence`) -/

/-- The two-level flattening at the top of `generateCompleteContent`:
every top-level section id followed by the ids of its immediate children
(deeper descendants are not visited). -/
def flattenedSections (template : Template) : List String :=
  template.sectionsOrEmpty.flatMap fun s => s.id :: (s.children.map fun c => c.id)

/-- The depth-≤-2 nodes themselves, in the same order as `flattenedSections`. -/
def depthTwoSections (template : Template) : List TemplateSection :=
  template.sectionsOrEmpty.flatMap fun s => s :: s.children

/-- `findSectionById` helper of the pipeline: per top-level section, check the
section itself and then its immediate children; first match wins. -/
def findSectionById (template : Template) (sectionId : String) :
    Option TemplateSection :=
  template.sectionsOrEmpty.findSome? fun s =>
    if s.id = sectionId then some s
    else s.children.find? fun ch => ch.id = sectionId

/-- The sort key of the section ordering: `findSectionById(...)?.level || 0`. -/
def levelOf (template : Template) (sectionId : String) : ℕ :=
  match findSectionById template sectionId with
  | some s => s.level.getD 0
  | none => 0

/-- `sortedSections`: the flattened ids stably sorted by level ascending
(`(a, b) => levelA - levelB`). -/
def sortedSections (template : Template) : List String :=
  (flattenedSections template).insertionSort
    fun a b => levelOf template a ≤ levelOf template b

/-- The sequential generation loop of `generateCompleteContent`: generate each
section in order and report `(processedCount / totalSections) * 100` after
each one.  `gen` is the (oracle-driven) per-section generation; `done` is
`processedCount` before the current iteration. -/
def genLoop (gen : String → GeneratedSection) (totalSections : ℕ) :
    List String → ℕ → List (GeneratedSection × ℚ)
  | [], _ => []
  | sid :: rest, done =>
      (gen sid, (((done : ℚ) + 1) / (totalSections : ℚ)) * 100)
        :: genLoop gen totalSections rest (done + 1)

/-- The observable run of `generateCompleteContent`: the generated sections in
generation order, paired with the progress value reported right after each
one. -/
def generateCompleteContentRun (gen : String → GeneratedSection)
    (template : Template) : List (GeneratedSection × ℚ) :=
  genLoop gen (flattenedSections template).length (sortedSections template) 0

/-- `validateContentCoherence`: the completion call and `JSON.parse` both sit
inside one `try`; any failure of either is caught and the empty map is
returned.  `llm` is the completion oracle on the section-contents record the
prompt and input embed; `parse` models `JSON.parse` (`none` = throw). -/
def validateContentCoherence
    (llm : List (String × String) → Except String String)
    (parse : String → Option (List (String × List String)))
    (content : GeneratedContent) : List (String × List String) :=
  let sectionContents := content.sections.map fun s => (s.title, s.content)
  match llm sectionContents with
  | .error _ => []
  | .ok raw =>
      match parse raw with
      | none => []
      | some validationResults => validationResults

/-! ## Job Manager (`generation-service.ts`)

A `GenerationJob` record.  `new Date()` timestamps are `ℕ` tick parameters
(`now`); each operation mirrors one synchronous block of the source.  The
event-emission of a block is returned as the list of job snapshots passed to
`emitJobEvent` by that block. -/

structure Job where
  id : String
  templateId : String
  sourceDocumentIds : List String
  status : JobStatus
  createdAt : ℕ
  updatedAt : ℕ
  result : Option GeneratedContent
  progress : ℚ
  error : Option String
  statusMessage : Option String
  metadata : ContentMetadata
deriving DecidableEq, Repr

/-- `createGenerationJob` (the fresh `uuidv4()` is the `newId` parameter). -/
def createGenerationJob (newId : String) (templateId : String)
    (sourceDocumentIds : List String) (metadata : ContentMetadata)
    (now : ℕ) : Job :=
  { id := newId
    templateId := templateId
    sourceDocumentIds := sourceDocumentIds
    status := .queued
    createdAt := now
    updatedAt := now
    result := none
    progress := 0
    error := none
    statusMessage := none
    metadata := metadata }

/-- `updateJobProgress` applied to the (found) job: set `progress`,
refresh `updatedAt`, set `statusMessage` only when a message is given,
emit one event. -/
def updateJobProgress (now : ℕ) (progress : ℚ) (message : Option String)
    (j : Job) : Job × List Job :=
  let j' := { j with
    progress := progress
    updatedAt := now
    statusMessage := match message with
      | some m => some m
      | none => j.statusMessage }
  (j', [j'])

/-- `cancelJob` applied to the (found) job: no-op returning `false` on a
terminal job, otherwise fail the job with the cancellation error.
Result: (job after the call, returned boolean, emitted events). -/
def cancelJob (now : ℕ) (j : Job) : Job × Bool × List Job :=
  if j.status = .completed ∨ j.status = .failed then
    (j, false, [])
  else
    let j' := { j with
      status := .failed
      error := some "Job cancelled by user"
      statusMessage := some "Cancelled"
      updatedAt := now }
    (j', true, [j'])

/-- The first synchronous block of `processJob`: mark the job `processing`,
refresh `updatedAt`, emit. -/
def processJobStart (now : ℕ) (j : Job) : Job × List Job :=
  let j' := { j with status := .processing, updatedAt := now }
  (j', [j'])

/-- The success tail of `processJob`: attach the final content, set
`completed`, progress `100`, the completion message, emit. -/
def processJobSuccess (now : ℕ) (finalContent : GeneratedContent)
    (j : Job) : Job × List Job :=
  let j' := { j with
    status := .completed
    result := some finalContent
    progress := 100
    statusMessage := some "Memorandum generation complete"
    updatedAt := now }
  (j', [j'])

/-- The `catch` block of `processJob`: set `failed`, record the error
message, emit. -/
def processJobFailure (now : ℕ) (message : String) (j : Job) : Job × List Job :=
  let j' := { j with
    status := .failed
    error := some message
    statusMessage := some "Failed to generate memorandum"
    updatedAt := now }
  (j', [j'])

/-! ### Interleaving semantics

`processJob` suspends at every `await` (the artificial delays, every
completion-service call inside the generation/enhancement/validation stages).
Each `Ev` is one atomic synchronous block acting on the job record; a
schedule is a list of events, so a `cancelJob` arriving between two pipeline
blocks is an event interleaved into the pipeline's own events. -/

inductive Ev where
  /-- the opening block of `processJob` -/
  | pstart (now : ℕ)
  /-- one `updateJobProgress(id, p, msg)` call -/
  | pprog (now : ℕ) (progress : ℚ) (message : String)
  /-- the success tail of `processJob` -/
  | pdone (now : ℕ) (finalContent : GeneratedContent)
  /-- the `catch` block of `processJob` -/
  | pfail (now : ℕ) (message : String)
  /-- a concurrent `cancelJob` call -/
  | cancel (now : ℕ)
deriving DecidableEq, Repr

def step (j : Job) : Ev → Job
  | .pstart now => (processJobStart now j).1
  | .pprog now p m => (updateJobProgress now p (some m) j).1
  | .pdone now c => (processJobSuccess now c j).1
  | .pfail now m => (processJobFailure now m j).1
  | .cancel now => (cancelJob now j).1

def runSteps (j : Job) (evs : List Ev) : Job :=
  evs.foldl step j

/-- All states visited while executing a schedule (initial state included). -/
def statesOf (j : Job) : List Ev → List Job
  | [] => [j]
  | e :: rest => j :: statesOf (step j e) rest

/-- The progress checkpoints an uninterrupted successful `processJob` reports
through `updateJobProgress`, with their messages, in order: the fixed 5 and
10, then per generated section `10 + ((k+1)/n * 100) * 0.6` (the pipeline
progress callback rescaled into the 10–70 band), then the fixed 70, 75, 90,
92 and 95. -/
def genCheckpoint (n k : ℕ) : ℚ :=
  10 + (((k : ℚ) + 1) / (n : ℚ) * 100) * (6 / 10)

def pipelineCheckpoints (n : ℕ) : List (ℚ × String) :=
  (5, "Analyzing documents and template")
    :: (10, "Starting content generation")
    :: ((List.range n).map fun k => (genCheckpoint n k, "Generating content"))
    ++ [(70, "Content generation complete"),
        (75, "Enhancing content quality"),
        (90, "Quality enhancement complete"),
        (92, "Validating content coherence"),
        (95, "Saving generated content")]

/-- The event list of one uninterrupted successful `processJob` execution on
a job whose template flattens to `n` sections; `ts k` is the clock at the
`k`-th block. -/
def successEvents (ts : ℕ → ℕ) (n : ℕ) (finalContent : GeneratedContent) :
    List Ev :=
  .pstart (ts 0)
    :: ((pipelineCheckpoints n).enumFrom 1).map
        (fun e => .pprog (ts e.1) e.2.1 e.2.2)
    ++ [.pdone (ts (n + 8)) finalContent]

/-- The event list of a `processJob` execution that raises at the `cut`-th
suspension point and lands in the `catch` block. -/
def failureEvents (ts : ℕ → ℕ) (n : ℕ) (cut : ℕ) (message : String) :
    List Ev :=
  .pstart (ts 0)
    :: (((pipelineCheckpoints n).take cut).enumFrom 1).map
        (fun e => .pprog (ts e.1) e.2.1 e.2.2)
    ++ [.pfail (ts (cut + 1)) message]

/-- `retryJob` applied to the (found) job, with the template and document
registries of `documents.ts` supplied explicitly
(`getTemplateById` / `getDocumentById` are `find?` over them).
Result: (job after the call, returned boolean, the `(template, sources)` of
the freshly scheduled `processJob` if one was scheduled, emitted events). -/
def retryJobOn (now : ℕ) (templates : List Template)
    (documentRegistry : List SourceDocument) (j : Job) :
    Job × Bool × Option (Template × List SourceDocument) × List Job :=
  if j.status ≠ .failed then (j, false, none, [])
  else
    match templates.find? fun t => t.id = j.templateId with
    | none => (j, false, none, [])
    | some template =>
        let sourceDocuments := j.sourceDocumentIds.filterMap fun i =>
          documentRegistry.find? fun d => d.id = i
        if sourceDocuments.isEmpty then (j, false, none, [])
        else
          let j' := { j with
            status := .queued
            progress := 0
            error := none
            statusMessage := some "Restarting job"
            updatedAt := now }
          (j', true, some (template, sourceDocuments), [j'])

/-- `getJobById` over the in-memory job list. -/
def getJobById (jobs : List Job) (id : String) : Option Job :=
  jobs.find? fun j => j.id = id

/-- In-place mutation of the record `getJobById` found: the first job with
this id is replaced, the rest of the list is untouched. -/
def updateFirstJob : List Job → String → Job → List Job
  | [], _, _ => []
  | x :: rest, id, j' =>
      if x.id = id then j' :: rest else x :: updateFirstJob rest id j'

/-- `retryJob(id)` at the registry level: resolve the job, apply
`retryJobOn`, the mutation lands on the record that was found. -/
def retryJob (now : ℕ) (templates : List Template)
    (documentRegistry : List SourceDocument) (jobs : List Job) (id : String) :
    List Job × Bool × Option (Template × List SourceDocument) × List Job :=
  match getJobById jobs id with
  | none => (jobs, false, none, [])
  | some j =>
      let r := retryJobOn now templates documentRegistry j
      (updateFirstJob jobs id r.1, r.2.1, r.2.2.1, r.2.2.2)

/-! ### Whole-execution (atomic) operational semantics

For invariants over operation *sequences* (claim C2), a `processJob`
execution is taken as one atomic unit (no interleaving inside it), matching
a schedule where each `setTimeout`-started execution runs to completion
before the next operation.  `pending` counts executions that have been
scheduled (by `startGenerationJob`'s or `retryJob`'s `setTimeout`) but have
not run yet. -/

/-- The outcome of one complete `processJob` execution. -/
inductive PipeOutcome where
  | success (ts : ℕ → ℕ) (n : ℕ) (finalContent : GeneratedContent)
  | failure (ts : ℕ → ℕ) (n : ℕ) (cut : ℕ) (message : String)

/-- Run one whole `processJob` execution on the job record. -/
def processAtomic (j : Job) : PipeOutcome → Job
  | .success ts n c => runSteps j (successEvents ts n c)
  | .failure ts n cut m => runSteps j (failureEvents ts n cut m)

/-- Job states reachable from `createGenerationJob` by whole `processJob`
executions and `retryJob` calls, with `cancelJob` never invoked.
`ReachableNoCancel j p` also tracks the number `p` of scheduled-but-not-run
executions. -/
inductive ReachableNoCancel : Job → ℕ → Prop where
  | create (newId templateId : String) (sourceDocumentIds : List String)
      (metadata : ContentMetadata) (now : ℕ) :
      ReachableNoCancel
        (createGenerationJob newId templateId sourceDocumentIds metadata now) 1
  | process (j : Job) (p : ℕ) (o : PipeOutcome) :
      ReachableNoCancel j (p + 1) →
      ReachableNoCancel (processAtomic j o) p
  | retry (j : Job) (p now : ℕ) (templates : List Template)
      (documentRegistry : List SourceDocument) :
      ReachableNoCancel j p →
      ReachableNoCancel (retryJobOn now templates documentRegistry j).1
        (p + if (retryJobOn now templates documentRegistry j).2.1 then 1 else 0)

/-! ## Event Bus (`emitJobEvent` and the listener registry)

`emitJobEvent` passes each listener `{ ...job }` — a *shallow* copy: the
copy's own fields are fresh, but nested objects (the `sourceDocumentIds`
array, `metadata`, `result`) are shared by reference.  To express this the
job's array-valued field is a reference `srcIdsRef` into an explicit array
store; a handler receives the copied record (a Lean value, so its own-field
updates are local, exactly like the shallow copy) together with the store,
and returns the store it leaves behind plus its locally mutated record
(which the emitter discards, as JavaScript does). -/

/-- The job record as the event bus sees it: own fields plus the reference
to the shared `sourceDocumentIds` array. -/
structure JobRec where
  id : String
  status : JobStatus
  progress : ℚ
  error : Option String
  srcIdsRef : ℕ
deriving DecidableEq, Repr

/-- The store of array objects, addressed by reference. -/
structure ArrayStore where
  arrays : ℕ → List String

/-- `JobEventCallback`: receives the (shallow-copied) record and may act on
the shared store; its record result is discarded by the emitter. -/
def JobEventCallback : Type :=
  JobRec → ArrayStore → ArrayStore × JobRec

/-- The listener registry `jobEventListeners`, keyed by job id. -/
def listenersFor (registry : List (String × List JobEventCallback))
    (jobId : String) : List JobEventCallback :=
  match registry.find? fun p => p.1 = jobId with
  | some p => p.2
  | none => []

/-- `addJobEventListener`: create the entry if absent, then push. -/
def addJobEventListener (registry : List (String × List JobEventCallback))
    (jobId : String) (callback : JobEventCallback) :
    List (String × List JobEventCallback) :=
  if registry.any fun p => p.1 = jobId then
    registry.map fun p => if p.1 = jobId then (p.1, p.2 ++ [callback]) else p
  else
    registry ++ [(jobId, [callback])]

/-- `emitJobEvent(job)`: invoke every current listener for `job.id`
synchronously, in subscription order, each on the shallow copy
`{ ...job }`; the manager's own record is never rebound. -/
def emitJobEvent (registry : List (String × List JobEventCallback))
    (job : JobRec) (st : ArrayStore) : ArrayStore :=
  (listenersFor registry job.id).foldl (fun s h => (h job s).1) st

/-- The job as a *value*: the record together with the contents of the
array it references (what the manager would observe when reading the job). -/
def resolvedJob (job : JobRec) (st : ArrayStore) : JobRec × List String :=
  (job, st.arrays job.srcIdsRef)

/-- The `processJob` schedule in the runs where the generation and
enhancement stages both succeed (yielding `enhancedContent`): the
coherence-validation stage runs `validateContentCoherence` — which cannot
throw — and its result is merged into the final content
(`{ ...enhancedContent, validationResults, updatedAt: new Date() }`), which
the success tail attaches to the job. -/
def processJobFrom (ts : ℕ → ℕ) (n : ℕ) (enhancedContent : GeneratedContent)
    (valLlm : List (String × String) → Except String String)
    (parse : String → Option (List (String × List String)))
    (finalUpdatedAt : ℕ) : List Ev :=
  successEvents ts n
    { enhancedContent with
      validationResults := validateContentCoherence valLlm parse enhancedContent
      updatedAt := finalUpdatedAt }

/-! ## Concrete sample values (used by witnesses and counterexamples) -/

def meta0 : ContentMetadata :=
  { assetName := "Harbor Tower", assetType := "Office", location := "Boston"
    client := "Acme", date := "2026-01-01", otherProperties := [] }

def content0 : GeneratedContent :=
  { id := "content-1", templateId := "tpl-1", sections := []
    createdAt := 0, updatedAt := 0, status := .draft, metadata := meta0
    validationResults := [] }

/-- A trivial per-section generation oracle. -/
def gen0 : String → GeneratedSection :=
  fun sid =>
    { id := "gen-" ++ sid, templateSectionId := sid, title := "", content := ""
      type := .text, sourceReferences := [], reviewStatus := .pending }

/-- A depth-3 template: `# A` / `## B` / `### C` as the structure parser
builds it (a level-3 subsection nested under a level-2 subsection). -/
def tplDeep : Template :=
  { id := "tpl-deep", name := "deep.md", contentType := "text/markdown"
    content := "", uploadedAt := 0, size := 0
    tstructure := some ⟨[.mk "a" "A" "" .heading (some 1)
      [.mk "b" "B" "" .heading (some 2)
        [.mk "c" "C" "" .heading (some 3) []]]]⟩ }

def tpl0 : Template :=
  { id := "tpl-1", name := "t.md", contentType := "text/markdown"
    content := "", uploadedAt := 0, size := 0, tstructure := none }

def doc0 : SourceDocument :=
  { id := "doc-1", name := "d.txt", contentType := "text/plain"
    content := "Executive Summary of the asset", uploadedAt := 0, size := 30 }

/-- A failed job as left by a failed execution. -/
def jobFailed0 : Job :=
  { createGenerationJob "job-1" "tpl-1" ["doc-1"] meta0 0 with
    status := .failed, error := some "boom" }

/-- An event-bus handler that mutates the shared `sourceDocumentIds` array
through the reference it received in the shallow copy. -/
def pushHandler : JobEventCallback :=
  fun r s =>
    ({ arrays := fun i =>
        if i = r.srcIdsRef then s.arrays i ++ ["injected"] else s.arrays i },
     r)

def jobRec0 : JobRec :=
  { id := "job-1", status := .queued, progress := 0, error := none, srcIdsRef := 0 }

def store0 : ArrayStore := { arrays := fun _ => ["doc-1"] }

/-- A completion oracle whose answer is not valid JSON. -/
def valLlmBad : List (String × String) → Except String String :=
  fun _ => .ok "not-json"

/-- A `JSON.parse` model that throws on every input. -/
def parseNone : String → Option (List (String × List String)) :=
  fun _ => none

/-- A template with the single top-level section `Executive Summary`. -/
def tplES : Template :=
  { id := "tpl-es", name := "es.md", contentType := "text/markdown"
    content := "", uploadedAt := 0, size := 0
    tstructure := some ⟨[.mk "s1" "Executive Summary" "" .heading (some 1) []]⟩ }

def docB : SourceDocument :=
  { id := "doc-2", name := "b.txt", contentType := "text/plain"
    content := "unrelated text", uploadedAt := 0, size := 14 }

def docC : SourceDocument :=
  { id := "doc-3", name := "c.txt", contentType := "text/plain"
    content := "more text", uploadedAt := 0, size := 9 }

/-- The strengthened registry invariant for cancel-free operation
sequences: the `result`/`error` fields mirror the status, and a scheduled
execution can only be pending while the job is `queued` (claim C2). -/
def JobInv (j : Job) (p : ℕ) : Prop :=
  (j.result.isSome ↔ j.status = .completed) ∧
  (j.error.isSome ↔ j.status = .failed) ∧
  (j.status ≠ .queued → p = 0) ∧
  (j.status = .queued → j.result = none ∧ j.error = none) ∧
  p ≤ 1

/-- A trivial completion oracle for the section generator. -/
def llm0 : String → TemplateSection → ContentMetadata → String :=
  fun _ _ _ => "generated"

/-! ## General lemmas about schedules -/

theorem runSteps_append (j : Job) (l₁ l₂ : List Ev) :
    runSteps j (l₁ ++ l₂) = runSteps (runSteps j l₁) l₂ :=
  List.foldl_append ..

theorem updateFirstJob_found :
    ∀ (jobs : List Job) (id : String) (j : Job),
      getJobById jobs id = some j → updateFirstJob jobs id j = jobs
  | [], _, _, h => by simp [getJobById] at h
  | x :: rest, id, j, h => by
      by_cases hx : x.id = id
      · have : j = x := by
          simp [getJobById, List.find?, hx] at h
          exact h.symm
        simp [updateFirstJob, hx, this]
      · have hr : getJobById rest id = some j := by
          simpa [getJobById, List.find?, hx] using h
        simp [updateFirstJob, hx, updateFirstJob_found rest id j hr]

/-! ## C1 -/

/-- C1: refuted on the code — `processJob`'s success tail overwrites the
job status with `completed` unconditionally, without re-checking that the
job is still `processing`.  Concretely: a job is created, its pipeline
starts and reports the first checkpoint, the user cancels at the first
`await` (the cancel is applied: the job becomes `failed` with the
cancellation error), and the still-running pipeline then finishes
successfully — the job ends `completed` with a result, resurrecting the
cancelled job. -/
theorem cancelled_job_resurrected_by_late_success :
    (cancelJob 10 (runSteps (createGenerationJob "job-1" "tpl-1" ["doc-1"] meta0 0)
        ((successEvents (fun k => k + 1) 0 content0).take 2))).2.1 = true ∧
    (cancelJob 10 (runSteps (createGenerationJob "job-1" "tpl-1" ["doc-1"] meta0 0)
        ((successEvents (fun k => k + 1) 0 content0).take 2))).1.status = .failed ∧
    (cancelJob 10 (runSteps (createGenerationJob "job-1" "tpl-1" ["doc-1"] meta0 0)
        ((successEvents (fun k => k + 1) 0 content0).take 2))).1.error
      = some "Job cancelled by user" ∧
    (runSteps
        (cancelJob 10 (runSteps (createGenerationJob "job-1" "tpl-1" ["doc-1"] meta0 0)
          ((successEvents (fun k => k + 1) 0 content0).take 2))).1
        ((successEvents (fun k => k + 1) 0 content0).drop 2)).status = .completed ∧
    (runSteps
        (cancelJob 10 (runSteps (createGenerationJob "job-1" "tpl-1" ["doc-1"] meta0 0)
          ((successEvents (fun k => k + 1) 0 content0).take 2))).1
        ((successEvents (fun k => k + 1) 0 content0).drop 2)).result = some content0 := by
  decide

/-! ## C9 / C10 -/

/-- C9: `retryJob` is permitted only from `failed`: it returns `false` (and
changes nothing) for an unknown job id and for a job whose status is not
`failed`; on a `failed` job whose template resolves and at least one of
whose source documents resolves, it resets progress to 0, clears the error,
transitions the job to `queued` (with the `Restarting job` message) and
schedules a fresh `processJob` on the re-resolved template and sources. -/
theorem retryJob_only_from_failed (now : ℕ) (templates : List Template)
    (documentRegistry : List SourceDocument) (jobs : List Job) (id : String) :
    (getJobById jobs id = none →
      retryJob now templates documentRegistry jobs id = (jobs, false, none, [])) ∧
    (∀ j, getJobById jobs id = some j → j.status ≠ .failed →
      retryJob now templates documentRegistry jobs id = (jobs, false, none, [])) ∧
    (∀ j template, getJobById jobs id = some j → j.status = .failed →
      templates.find? (fun t => t.id = j.templateId) = some template →
      (j.sourceDocumentIds.filterMap fun i =>
        documentRegistry.find? fun d => d.id = i) ≠ [] →
      retryJob now templates documentRegistry jobs id =
        (updateFirstJob jobs id
           { j with status := .queued, progress := 0, error := none,
                    statusMessage := some "Restarting job", updatedAt := now },
         true,
         some (template,
           j.sourceDocumentIds.filterMap fun i =>
             documentRegistry.find? fun d => d.id = i),
         [{ j with status := .queued, progress := 0, error := none,
                   statusMessage := some "Restarting job", updatedAt := now }])) := by
  refine ⟨fun h => by simp [retryJob, h], fun j hj hst => ?_, fun j template hj hst htpl hdocs => ?_⟩
  · have : retryJobOn now templates documentRegistry j = (j, false, none, []) := by
      simp [retryJobOn, hst]
    simp [retryJob, hj, this, updateFirstJob_found jobs id j hj]
  · have hne : ¬ j.status ≠ JobStatus.failed := by simp [hst]
    have hempty : (j.sourceDocumentIds.filterMap fun i =>
        documentRegistry.find? fun d => d.id = i).isEmpty = false := by
      simpa [List.isEmpty_iff] using hdocs
    simp [retryJob, hj, retryJobOn, hne, htpl, hempty]

/-- Witness for C9: a concrete failed job with resolvable template and
document is retried (returns `true`), and a concrete `processing` job is
rejected. -/
theorem retryJob_only_from_failed_witness :
    (retryJob 5 [tpl0] [doc0] [jobFailed0] "job-1").2.1 = true ∧
    retryJob 99 [tpl0] [doc0] [{ jobFailed0 with status := .processing }] "job-1"
      = ([{ jobFailed0 with status := .processing }], false, none, []) := by
  constructor
  · have h := (retryJob_only_from_failed 5 [tpl0] [doc0] [jobFailed0] "job-1").2.2
      jobFailed0 tpl0 rfl rfl rfl (by decide)
    rw [h]
  · exact (retryJob_only_from_failed 99 [tpl0] [doc0]
      [{ jobFailed0 with status := .processing }] "job-1").2.1
      { jobFailed0 with status := .processing } rfl (by decide)

/-- C10: `retryJob` on a `failed` job whose template id does not resolve, or
none of whose source-document ids resolve, returns `false` and leaves the
job registry — hence the job record, all its fields and timestamps —
entirely unchanged, schedules nothing and publishes no event. -/
theorem retryJob_unresolvable_is_noop (now : ℕ) (templates : List Template)
    (documentRegistry : List SourceDocument) (jobs : List Job) (id : String)
    (j : Job) (hj : getJobById jobs id = some j) (hst : j.status = .failed)
    (hbad : templates.find? (fun t => t.id = j.templateId) = none ∨
      (j.sourceDocumentIds.filterMap fun i =>
        documentRegistry.find? fun d => d.id = i) = []) :
    retryJob now templates documentRegistry jobs id = (jobs, false, none, []) := by
  have hne : ¬ j.status ≠ JobStatus.failed := by simp [hst]
  have hR : retryJobOn now templates documentRegistry j = (j, false, none, []) := by
    rcases hbad with hb | hb
    · simp [retryJobOn, hne, hb]
    · rcases h : templates.find? fun t => t.id = j.templateId with _ | template
      · simp [retryJobOn, hne, h]
      · simp [retryJobOn, hne, h, hb]
  simp [retryJob, hj, hR, updateFirstJob_found jobs id j hj]

/-- Witness for C10: retrying a concrete failed job whose template id is not
in the registry changes nothing. -/
theorem retryJob_unresolvable_is_noop_witness :
    retryJob 7 [] [doc0] [jobFailed0] "job-1" = ([jobFailed0], false, none, []) :=
  retryJob_unresolvable_is_noop 7 [] [doc0] [jobFailed0] "job-1" jobFailed0
    rfl rfl (Or.inl rfl)

/-! ## C7 -/

theorem runSteps_successEvents (j : Job) (ts : ℕ → ℕ) (n : ℕ)
    (c : GeneratedContent) :
    (runSteps j (successEvents ts n c)).status = .completed ∧
    (runSteps j (successEvents ts n c)).result = some c ∧
    (runSteps j (successEvents ts n c)).progress = 100 := by
  have h : successEvents ts n c =
      (Ev.pstart (ts 0) :: ((pipelineCheckpoints n).enumFrom 1).map
        (fun e => .pprog (ts e.1) e.2.1 e.2.2)) ++ [Ev.pdone (ts (n + 8)) c] := by
    simp [successEvents]
  rw [h, runSteps_append]
  simp [runSteps, step, processJobSuccess]

/-- C7: a coherence-validation parse failure is non-fatal.  If the
completion call of `validateContentCoherence` errors, or its response fails
to parse, the function returns the empty validation-results map (it cannot
throw: both failure modes are caught inside it), and the owning job — whose
generation and enhancement stages succeeded — still runs the success tail
of `processJob` and ends `completed` with the enhanced content (carrying the
empty validation map) attached, not `failed`. -/
theorem coherence_parse_failure_is_nonfatal
    (ts : ℕ → ℕ) (n : ℕ) (enhancedContent : GeneratedContent)
    (valLlm : List (String × String) → Except String String)
    (parse : String → Option (List (String × List String)))
    (finalUpdatedAt : ℕ) (j : Job)
    (hfail : ∀ raw,
      valLlm (enhancedContent.sections.map fun s => (s.title, s.content)) = .ok raw →
      parse raw = none) :
    validateContentCoherence valLlm parse enhancedContent = [] ∧
    (runSteps j (processJobFrom ts n enhancedContent valLlm parse
        finalUpdatedAt)).status = .completed ∧
    (runSteps j (processJobFrom ts n enhancedContent valLlm parse
        finalUpdatedAt)).result =
      some { enhancedContent with
             validationResults := ([] : List (String × List String)),
             updatedAt := finalUpdatedAt } := by
  have hv : validateContentCoherence valLlm parse enhancedContent = [] := by
    unfold validateContentCoherence
    rcases h : valLlm (enhancedContent.sections.map fun s => (s.title, s.content))
      with e | raw
    · simp [h]
    · simp [h, hfail raw h]
  refine ⟨hv, ?_, ?_⟩
  · exact (runSteps_successEvents j ts n _).1
  · have hr := (runSteps_successEvents j ts n
      { enhancedContent with
        validationResults := validateContentCoherence valLlm parse enhancedContent
        updatedAt := finalUpdatedAt }).2.1
    rw [processJobFrom, hr, hv]

/-- Witness for C7: a concrete job whose validation stage receives a
non-JSON completion answer still completes. -/
theorem coherence_parse_failure_is_nonfatal_witness :
    validateContentCoherence valLlmBad parseNone content0 = [] ∧
    (runSteps (createGenerationJob "job-1" "tpl-1" ["doc-1"] meta0 0)
      (processJobFrom (fun k => k) 0 content0 valLlmBad parseNone 9)).status
      = .completed := by
  have h := coherence_parse_failure_is_nonfatal (fun k => k) 0 content0
    valLlmBad parseNone 9 (createGenerationJob "job-1" "tpl-1" ["doc-1"] meta0 0)
    (fun raw _ => rfl)
  exact ⟨h.1, h.2.1⟩

/-! ## C2 -/

theorem runSteps_preserve_of_all_pprog (l : List Ev) (j : Job)
    (h : ∀ e ∈ l, ∃ now p m, e = Ev.pprog now p m) :
    (runSteps j l).status = j.status ∧
    (runSteps j l).result = j.result ∧
    (runSteps j l).error = j.error := by
  induction l generalizing j with
  | nil => exact ⟨rfl, rfl, rfl⟩
  | cons e rest ih =>
      obtain ⟨now, p, m, rfl⟩ := h _ (List.mem_cons_self e rest)
      have hrest : ∀ e ∈ rest, ∃ now p m, e = Ev.pprog now p m :=
        fun e he => h e (List.mem_cons_of_mem _ he)
      simpa [runSteps, step, updateJobProgress] using
        ih ((updateJobProgress now p (some m) j).1) hrest

theorem processAtomic_success (j : Job) (ts : ℕ → ℕ) (n : ℕ)
    (c : GeneratedContent) :
    (processAtomic j (.success ts n c)).status = .completed ∧
    (processAtomic j (.success ts n c)).result = some c ∧
    (processAtomic j (.success ts n c)).error = j.error := by
  have h : successEvents ts n c =
      (Ev.pstart (ts 0) :: ((pipelineCheckpoints n).enumFrom 1).map
        (fun e => .pprog (ts e.1) e.2.1 e.2.2)) ++ [Ev.pdone (ts (n + 8)) c] := by
    simp [successEvents]
  have hmid := runSteps_preserve_of_all_pprog
    (((pipelineCheckpoints n).enumFrom 1).map fun e => Ev.pprog (ts e.1) e.2.1 e.2.2)
    ((processJobStart (ts 0) j).1)
    (by intro e he; simp only [List.mem_map] at he; obtain ⟨a, _, rfl⟩ := he
        exact ⟨_, _, _, rfl⟩)
  simp only [processAtomic, h, runSteps_append]
  simp only [runSteps, List.foldl_cons, List.foldl_nil] at hmid ⊢
  simp only [processJobStart] at hmid
  simp [step, processJobSuccess, processJobStart, hmid.2.2]

theorem processAtomic_failure (j : Job) (ts : ℕ → ℕ) (n cut : ℕ)
    (message : String) :
    (processAtomic j (.failure ts n cut message)).status = .failed ∧
    (processAtomic j (.failure ts n cut message)).error = some message ∧
    (processAtomic j (.failure ts n cut message)).result = j.result := by
  have h : failureEvents ts n cut message =
      (Ev.pstart (ts 0) :: (((pipelineCheckpoints n).take cut).enumFrom 1).map
        (fun e => .pprog (ts e.1) e.2.1 e.2.2)) ++ [Ev.pfail (ts (cut + 1)) message] := by
    simp [failureEvents]
  have hmid := runSteps_preserve_of_all_pprog
    ((((pipelineCheckpoints n).take cut).enumFrom 1).map
      fun e => Ev.pprog (ts e.1) e.2.1 e.2.2)
    ((processJobStart (ts 0) j).1)
    (by intro e he; simp only [List.mem_map] at he; obtain ⟨a, _, rfl⟩ := he
        exact ⟨_, _, _, rfl⟩)
  simp only [processAtomic, h, runSteps_append]
  simp only [runSteps, List.foldl_cons, List.foldl_nil] at hmid ⊢
  simp only [processJobStart] at hmid
  simp [step, processJobFailure, processJobStart, hmid.2.1]

theorem retryJobOn_cases (now : ℕ) (templates : List Template)
    (documentRegistry : List SourceDocument) (j : Job) :
    retryJobOn now templates documentRegistry j = (j, false, none, []) ∨
    (j.status = .failed ∧
      (retryJobOn now templates documentRegistry j).1 =
        { j with status := .queued, progress := 0, error := none,
                 statusMessage := some "Restarting job", updatedAt := now } ∧
      (retryJobOn now templates documentRegistry j).2.1 = true) := by
  by_cases hst : j.status = .failed
  · have hne : ¬ j.status ≠ JobStatus.failed := by simp [hst]
    rcases htpl : templates.find? fun t => t.id = j.templateId with _ | template
    · exact Or.inl (by simp [retryJobOn, hne, htpl])
    · by_cases hdocs : (j.sourceDocumentIds.filterMap fun i =>
        documentRegistry.find? fun d => d.id = i).isEmpty
      · exact Or.inl (by simp [retryJobOn, hne, htpl, hdocs])
      · exact Or.inr ⟨hst, by simp [retryJobOn, hne, htpl, hdocs],
          by simp [retryJobOn, hne, htpl, hdocs]⟩
  · exact Or.inl (by simp [retryJobOn, hst])

theorem reachableNoCancel_inv (j : Job) (p : ℕ)
    (h : ReachableNoCancel j p) : JobInv j p := by
  induction h with
  | create newId templateId sourceDocumentIds metadata now =>
      simp [JobInv, createGenerationJob]
  | process j p o _ ih =>
      obtain ⟨hres, herr, hpend, hq, hle⟩ := ih
      have hp0 : p = 0 := by omega
      have hqd : j.status = .queued := by
        by_contra hne
        exact absurd (hpend hne) (by omega)
      obtain ⟨hrn, hen⟩ := hq hqd
      subst hp0
      cases o with
      | success ts n c =>
          obtain ⟨h1, h2, h3⟩ := processAtomic_success j ts n c
          refine ⟨?_, ?_, ?_, ?_, ?_⟩ <;> simp [h1, h2, h3, hen]
      | failure ts n cut m =>
          obtain ⟨h1, h2, h3⟩ := processAtomic_failure j ts n cut m
          refine ⟨?_, ?_, ?_, ?_, ?_⟩ <;> simp [h1, h2, h3, hrn]
  | retry j p now templates documentRegistry _ ih =>
      obtain ⟨hres, herr, hpend, hq, hle⟩ := ih
      rcases retryJobOn_cases now templates documentRegistry j with heq | ⟨hst, h1, h2⟩
      · simpa [heq] using ⟨hres, herr, hpend, hq, hle⟩
      · have hp0 : p = 0 := hpend (by simp [hst])
        have hrn : j.result = none := by
          rcases hr : j.result with _ | r
          · rfl
          · exact absurd (hres.1 (by simp [hr])) (by simp [hst])
        subst hp0
        refine ⟨?_, ?_, ?_, ?_, ?_⟩ <;> simp [h1, h2, hrn]

/-- C2 (amended): for every job reachable by any sequence of `create`,
run-to-completion `process` executions and `retry` calls — with `cancelJob`
never invoked — the `result` field is present iff the job's status is
`completed` and the `error` field is present iff the status is `failed`.
(The original claim, which also allows `cancel`, is refuted by
`error_survives_into_completed_after_cancel`: the success path of
`processJob` neither re-checks the status nor clears `error`.) -/
theorem result_error_iff_status_without_cancel (j : Job) (p : ℕ)
    (h : ReachableNoCancel j p) :
    (j.result.isSome ↔ j.status = .completed) ∧
    (j.error.isSome ↔ j.status = .failed) :=
  ⟨(reachableNoCancel_inv j p h).1, (reachableNoCancel_inv j p h).2.1⟩

/-- Witness for C2 (amended): the equivalences at a freshly created job. -/
theorem result_error_iff_status_without_cancel_witness :
    ((createGenerationJob "job-1" "tpl-1" ["doc-1"] meta0 0).result.isSome ↔
      (createGenerationJob "job-1" "tpl-1" ["doc-1"] meta0 0).status = .completed) ∧
    ((createGenerationJob "job-1" "tpl-1" ["doc-1"] meta0 0).error.isSome ↔
      (createGenerationJob "job-1" "tpl-1" ["doc-1"] meta0 0).status = .failed) :=
  result_error_iff_status_without_cancel _ 1
    (ReachableNoCancel.create "job-1" "tpl-1" ["doc-1"] meta0 0)

/-- C2: refuted as stated.  The operation sequence `create`; `cancel` (while
the job is still `queued`, before its scheduled execution starts);
`process` (the already-scheduled execution runs and succeeds) leaves the job
`completed` while the cancellation error is still present — `error` is
present but the status is not `failed`. -/
theorem error_survives_into_completed_after_cancel :
    (cancelJob 1 (createGenerationJob "job-1" "tpl-1" ["doc-1"] meta0 0)).2.1
      = true ∧
    (processAtomic
        (cancelJob 1 (createGenerationJob "job-1" "tpl-1" ["doc-1"] meta0 0)).1
        (.success (fun k => k + 2) 0 content0)).status = .completed ∧
    (processAtomic
        (cancelJob 1 (createGenerationJob "job-1" "tpl-1" ["doc-1"] meta0 0)).1
        (.success (fun k => k + 2) 0 content0)).error
      = some "Job cancelled by user" := by
  decide

/-! ## C3 -/

theorem statesOf_ne_nil (j : Job) (l : List Ev) : statesOf j l ≠ [] := by
  cases l <;> simp [statesOf]

theorem statesOf_concat_runSteps (l : List Ev) (j : Job) :
    (statesOf j l).dropLast ++ [runSteps j l] = statesOf j l := by
  induction l generalizing j with
  | nil => simp [statesOf, runSteps]
  | cons e rest ih =>
      have h := ih (step j e)
      rcases hs : statesOf (step j e) rest with _ | ⟨s, ss⟩
      · exact absurd hs (statesOf_ne_nil _ _)
      · simp only [statesOf, runSteps, List.foldl_cons, hs] at h ⊢
        simpa [List.dropLast_cons₂] using h

theorem statesOf_append (l₁ l₂ : List Ev) (j : Job) :
    statesOf j (l₁ ++ l₂) =
      (statesOf j l₁).dropLast ++ statesOf (runSteps j l₁) l₂ := by
  induction l₁ generalizing j with
  | nil => simp [statesOf, runSteps]
  | cons e rest ih =>
      have h := ih (step j e)
      rcases hs : statesOf (step j e) rest with _ | ⟨s, ss⟩
      · exact absurd hs (statesOf_ne_nil _ _)
      · simp only [statesOf, runSteps, List.foldl_cons, List.cons_append, hs] at h ⊢
        simp [h, List.dropLast_cons₂, hs]

theorem runSteps_mem_statesOf (l : List Ev) (j : Job) :
    runSteps j l ∈ statesOf j l := by
  induction l generalizing j with
  | nil => simp [statesOf, runSteps]
  | cons e rest ih =>
      simpa [statesOf, runSteps] using Or.inr (ih (step j e))

theorem statesOf_pprogs (ts : ℕ → ℕ) (cps : List (ℚ × String)) :
    ∀ (k : ℕ) (j : Job), j.status = .processing →
    (∀ s ∈ statesOf j ((cps.enumFrom k).map fun e => Ev.pprog (ts e.1) e.2.1 e.2.2),
      s.status = .processing) ∧
    (statesOf j ((cps.enumFrom k).map fun e =>
        Ev.pprog (ts e.1) e.2.1 e.2.2)).map Job.progress
      = j.progress :: cps.map Prod.fst := by
  induction cps with
  | nil =>
      intro k j hj
      simp [statesOf, hj]
  | cons p rest ih =>
      intro k j hj
      have hstep : (step j (Ev.pprog (ts k) p.1 p.2)).status = .processing := hj
      have h := ih (k + 1) (step j (Ev.pprog (ts k) p.1 p.2)) hstep
      refine ⟨?_, ?_⟩
      · intro s hs
        simp only [List.enumFrom_cons, List.map_cons, statesOf, List.mem_cons] at hs
        rcases hs with rfl | hs
        · exact hj
        · exact h.1 s hs
      · simp only [List.enumFrom_cons, List.map_cons, statesOf, List.map_cons,
          h.2, List.map]
        rfl

theorem pipelineCheckpoints_fst (n : ℕ) :
    (pipelineCheckpoints n).map Prod.fst =
      5 :: 10 :: ((List.range n).map (genCheckpoint n)) ++ [70, 75, 90, 92, 95] := by
  simp [pipelineCheckpoints]

theorem genCheckpoint_bounds (n k : ℕ) (hk : k < n) :
    (10:ℚ) ≤ genCheckpoint n k ∧ genCheckpoint n k ≤ 70 := by
  unfold genCheckpoint
  have hn : (1:ℚ) ≤ (n:ℚ) := by exact_mod_cast Nat.one_le_iff_ne_zero.mpr (by omega)
  have hx0 : (0:ℚ) ≤ ((k:ℚ) + 1) / (n:ℚ) := by positivity
  have hx1 : ((k:ℚ) + 1) / (n:ℚ) ≤ 1 := by
    apply div_le_one_of_le₀
    · exact_mod_cast Nat.succ_le_of_lt hk
    · linarith
  constructor <;> nlinarith

theorem genCheckpoint_mono (n : ℕ) {a b : ℕ} (hab : a ≤ b) :
    genCheckpoint n a ≤ genCheckpoint n b := by
  rcases Nat.eq_zero_or_pos n with hn | hn
  · subst hn
    simp [genCheckpoint]
  · unfold genCheckpoint
    have h1 : ((a:ℚ) + 1) ≤ ((b:ℚ) + 1) := by exact_mod_cast Nat.succ_le_succ hab
    have hn' : (0:ℚ) < (n:ℚ) := by exact_mod_cast hn
    gcongr

theorem pipelineCheckpoints_bounds (n : ℕ) :
    ∀ q ∈ (pipelineCheckpoints n).map Prod.fst, (5:ℚ) ≤ q ∧ q ≤ 95 := by
  intro q hq
  rw [pipelineCheckpoints_fst] at hq
  simp only [List.mem_cons, List.mem_append, List.mem_map, List.mem_range,
    List.not_mem_nil, or_false] at hq
  rcases hq with (rfl | rfl | ⟨k, hk, rfl⟩) | (rfl | rfl | rfl | rfl | rfl)
  · norm_num
  · norm_num
  · have := genCheckpoint_bounds n k hk
    constructor <;> linarith [this.1, this.2]
  all_goals norm_num

theorem pipelineCheckpoints_sorted (n : ℕ) :
    List.Pairwise (· ≤ ·) ((0:ℚ) :: (pipelineCheckpoints n).map Prod.fst) := by
  rw [List.pairwise_cons]
  refine ⟨fun q hq => le_trans (by norm_num) (pipelineCheckpoints_bounds n q hq).1, ?_⟩
  rw [pipelineCheckpoints_fst]
  have hgenb : ∀ q ∈ (List.range n).map (genCheckpoint n), (10:ℚ) ≤ q ∧ q ≤ 70 := by
    intro q hq
    simp only [List.mem_map, List.mem_range] at hq
    obtain ⟨k, hk, rfl⟩ := hq
    exact genCheckpoint_bounds n k hk
  have htail : ∀ b ∈ ([70, 75, 90, 92, 95] : List ℚ), (70:ℚ) ≤ b := by
    intro b hb
    simp only [List.mem_cons, List.not_mem_nil, or_false] at hb
    rcases hb with rfl | rfl | rfl | rfl | rfl <;> norm_num
  rw [List.pairwise_append]
  refine ⟨?_, by norm_num [List.pairwise_cons], ?_⟩
  · rw [List.pairwise_cons]
    constructor
    · intro q hq
      simp only [List.mem_cons, List.mem_map, List.mem_range] at hq
      rcases hq with rfl | ⟨k, hk, rfl⟩
      · norm_num
      · linarith [(genCheckpoint_bounds n k hk).1]
    rw [List.pairwise_cons]
    refine ⟨fun q hq => ?_, ?_⟩
    · exact (hgenb q hq).1
    · exact (List.pairwise_lt_range n).map _
        fun a b hab => genCheckpoint_mono n (Nat.le_of_lt hab)
  · intro a ha b hb
    have ha70 : a ≤ 70 := by
      simp only [List.mem_cons, List.mem_map, List.mem_range] at ha
      rcases ha with rfl | rfl | ⟨k, hk, rfl⟩
      · norm_num
      · norm_num
      · exact (genCheckpoint_bounds n k hk).2
    exact le_trans ha70 (htail b hb)

theorem statesOf_run_decomp (j0 : Job) (e0 : Ev) (mid : List Ev) (elast : Ev) :
    statesOf j0 ((e0 :: mid) ++ [elast]) =
      (j0 :: statesOf (step j0 e0) mid) ++
        [step (runSteps (step j0 e0) mid) elast] := by
  rw [statesOf_append]
  have h1 : statesOf j0 (e0 :: mid) = j0 :: statesOf (step j0 e0) mid := rfl
  have h2 : runSteps j0 (e0 :: mid) = runSteps (step j0 e0) mid := rfl
  rw [h1, h2]
  rcases hs : statesOf (step j0 e0) mid with _ | ⟨s, ss⟩
  · exact absurd hs (statesOf_ne_nil _ _)
  · have h3 := statesOf_concat_runSteps mid (step j0 e0)
    rw [hs] at h3
    have h4 : statesOf (runSteps (step j0 e0) mid) [elast] =
        [runSteps (step j0 e0) mid, step (runSteps (step j0 e0) mid) elast] := rfl
    rw [h4, List.dropLast_cons₂]
    calc (j0 :: (s :: ss).dropLast) ++
          [runSteps (step j0 e0) mid, step (runSteps (step j0 e0) mid) elast]
        = j0 :: (((s :: ss).dropLast ++ [runSteps (step j0 e0) mid]) ++
            [step (runSteps (step j0 e0) mid) elast]) := by simp
      _ = (j0 :: s :: ss) ++ [step (runSteps (step j0 e0) mid) elast] := by
            rw [h3]; simp

/-- C3: during a single (uninterfered) execution of `processJob` — whether it
ends in the success tail or raises into the `catch` block at any suspension
point — the values `progress` takes while the job's status is `processing`
form a non-decreasing sequence, and `progress` reaches exactly 100 if and
only if the job's status becomes `completed` during that execution. -/
theorem progress_monotone_and_100_iff_completed
    (ts : ℕ → ℕ) (n : ℕ) (c : GeneratedContent) (e : String) (j0 : Job)
    (hprog : j0.progress = 0) (hst : j0.status = .queued ∨ j0.status = .failed)
    (evs : List Ev)
    (hevs : evs = successEvents ts n c ∨ ∃ cut, evs = failureEvents ts n cut e) :
    (((statesOf j0 evs).filter fun s => s.status = .processing).map
        Job.progress).Pairwise (· ≤ ·) ∧
    ((∃ s ∈ statesOf j0 evs, s.progress = 100) ↔
      ∃ s ∈ statesOf j0 evs, s.status = .completed) := by
  have hj0p : ¬ (j0.status = JobStatus.processing) := by
    rcases hst with h | h <;> simp [h]
  rcases hevs with rfl | ⟨cut, rfl⟩
  · -- successful execution
    have hdec : successEvents ts n c =
        (Ev.pstart (ts 0) :: ((pipelineCheckpoints n).enumFrom 1).map
          (fun e => .pprog (ts e.1) e.2.1 e.2.2)) ++ [Ev.pdone (ts (n + 8)) c] := by
      simp [successEvents]
    rw [hdec, statesOf_run_decomp]
    have hs1 : (step j0 (Ev.pstart (ts 0))).status = .processing := rfl
    have hrun := statesOf_pprogs ts (pipelineCheckpoints n) 1
      (step j0 (Ev.pstart (ts 0))) hs1
    set S := statesOf (step j0 (Ev.pstart (ts 0)))
      (((pipelineCheckpoints n).enumFrom 1).map
        fun e => Ev.pprog (ts e.1) e.2.1 e.2.2) with hS
    set x := runSteps (step j0 (Ev.pstart (ts 0)))
      (((pipelineCheckpoints n).enumFrom 1).map
        fun e => Ev.pprog (ts e.1) e.2.1 e.2.2) with hx
    have hfin_st : (step x (Ev.pdone (ts (n + 8)) c)).status = .completed := rfl
    have hfin_pr : (step x (Ev.pdone (ts (n + 8)) c)).progress = 100 := rfl
    constructor
    · have hfilter : ((j0 :: S) ++ [step x (Ev.pdone (ts (n + 8)) c)]).filter
          (fun s => s.status = .processing) = S := by
        rw [List.filter_append, List.filter_cons,
          List.filter_eq_self.mpr fun s hs => by simp [hrun.1 s hs]]
        simp [hj0p, hfin_st]
      rw [hfilter, hrun.2]
      have hp := pipelineCheckpoints_sorted n
      have : (step j0 (Ev.pstart (ts 0))).progress = (0:ℚ) := by
        show j0.progress = (0:ℚ)
        exact hprog
      rw [this]
      exact hp
    · constructor
      · intro _
        exact ⟨step x (Ev.pdone (ts (n + 8)) c), by simp, hfin_st⟩
      · intro _
        exact ⟨step x (Ev.pdone (ts (n + 8)) c), by simp, hfin_pr⟩
  · -- failing execution, cut at any suspension point
    have hdec : failureEvents ts n cut e =
        (Ev.pstart (ts 0) :: (((pipelineCheckpoints n).take cut).enumFrom 1).map
          (fun e => .pprog (ts e.1) e.2.1 e.2.2)) ++ [Ev.pfail (ts (cut + 1)) e] := by
      simp [failureEvents]
    rw [hdec, statesOf_run_decomp]
    have hs1 : (step j0 (Ev.pstart (ts 0))).status = .processing := rfl
    have hrun := statesOf_pprogs ts ((pipelineCheckpoints n).take cut) 1
      (step j0 (Ev.pstart (ts 0))) hs1
    set S := statesOf (step j0 (Ev.pstart (ts 0)))
      ((((pipelineCheckpoints n).take cut).enumFrom 1).map
        fun e => Ev.pprog (ts e.1) e.2.1 e.2.2) with hS
    set x := runSteps (step j0 (Ev.pstart (ts 0)))
      ((((pipelineCheckpoints n).take cut).enumFrom 1).map
        fun e => Ev.pprog (ts e.1) e.2.1 e.2.2) with hx
    have hfin_st : (step x (Ev.pfail (ts (cut + 1)) e)).status = .failed := rfl
    have hfin_pr : (step x (Ev.pfail (ts (cut + 1)) e)).progress = x.progress := rfl
    have hSprog : S.map Job.progress =
        0 :: ((pipelineCheckpoints n).map Prod.fst).take cut := by
      rw [hrun.2]
      have : (step j0 (Ev.pstart (ts 0))).progress = (0:ℚ) := by
        show j0.progress = (0:ℚ)
        exact hprog
      rw [this, List.map_take]
    have hmem95 : ∀ q ∈ (0:ℚ) :: ((pipelineCheckpoints n).map Prod.fst).take cut,
        q ≤ 95 := by
      intro q hq
      rcases List.mem_cons.mp hq with rfl | hq
      · norm_num
      · exact (pipelineCheckpoints_bounds n q (List.take_subset _ _ hq)).2
    constructor
    · have hfilter : ((j0 :: S) ++ [step x (Ev.pfail (ts (cut + 1)) e)]).filter
          (fun s => s.status = .processing) = S := by
        rw [List.filter_append, List.filter_cons,
          List.filter_eq_self.mpr fun s hs => by simp [hrun.1 s hs]]
        simp [hj0p, hfin_st]
      rw [hfilter, hSprog]
      exact (pipelineCheckpoints_sorted n).sublist
        (List.cons_sublist_cons.mpr (List.take_sublist _ _))
    · have hno100 : ∀ s ∈ (j0 :: S) ++ [step x (Ev.pfail (ts (cut + 1)) e)],
          s.progress ≠ 100 := by
        intro s hs
        have hval : s.progress ≤ 95 ∨ s.progress = j0.progress := by
          rcases List.mem_append.mp hs with hs | hs
          · rcases List.mem_cons.mp hs with rfl | hs
            · exact Or.inr rfl
            · exact Or.inl (hmem95 _ (hSprog ▸ List.mem_map_of_mem Job.progress hs))
          · rcases List.mem_singleton.mp hs with rfl
            rw [hfin_pr]
            exact Or.inl (hmem95 _ (hSprog ▸
              List.mem_map_of_mem Job.progress (runSteps_mem_statesOf _ _)))
        rcases hval with h | h
        · intro hc; rw [hc] at h; norm_num at h
        · rw [h, hprog]; norm_num
      have hnocomp : ∀ s ∈ (j0 :: S) ++ [step x (Ev.pfail (ts (cut + 1)) e)],
          s.status ≠ .completed := by
        intro s hs
        rcases List.mem_append.mp hs with hs | hs
        · rcases List.mem_cons.mp hs with rfl | hs
          · rcases hst with h | h <;> simp [h]
          · simp [hrun.1 s hs]
        · rcases List.mem_singleton.mp hs with rfl
          simp [hfin_st]
      constructor
      · rintro ⟨s, hs, h100⟩
        exact absurd h100 (hno100 s hs)
      · rintro ⟨s, hs, hcomp⟩
        exact absurd hcomp (hnocomp s hs)

/-- Witness for C3: the property at a concrete run — one generated section,
a fresh queued job, the successful schedule. -/
theorem progress_monotone_and_100_iff_completed_witness :
    (((statesOf (createGenerationJob "job-1" "tpl-1" ["doc-1"] meta0 0)
          (successEvents (fun k => k) 1 content0)).filter
        fun s => s.status = .processing).map Job.progress).Pairwise (· ≤ ·) ∧
    ((∃ s ∈ statesOf (createGenerationJob "job-1" "tpl-1" ["doc-1"] meta0 0)
          (successEvents (fun k => k) 1 content0), s.progress = 100) ↔
      ∃ s ∈ statesOf (createGenerationJob "job-1" "tpl-1" ["doc-1"] meta0 0)
          (successEvents (fun k => k) 1 content0), s.status = .completed) :=
  progress_monotone_and_100_iff_completed (fun k => k) 1 content0 "err"
    (createGenerationJob "job-1" "tpl-1" ["doc-1"] meta0 0) rfl (Or.inl rfl)
    (successEvents (fun k => k) 1 content0) (Or.inl rfl)

/-! ## C8 -/

theorem listenersFor_add (registry : List (String × List JobEventCallback))
    (jobId : String) (h : JobEventCallback) :
    listenersFor (addJobEventListener registry jobId h) jobId =
      listenersFor registry jobId ++ [h] := by
  induction registry with
  | nil => simp [addJobEventListener, listenersFor]
  | cons p rest ih =>
      by_cases hp : p.1 = jobId
      · have hany : ((p :: rest).any fun q => q.1 = jobId) = true := by simp [hp]
        simp [addJobEventListener, hany, listenersFor, hp]
      · by_cases hr : (rest.any fun q => q.1 = jobId) = true
        · have hany : ((p :: rest).any fun q => q.1 = jobId) = true := by
            simp [List.any_cons, hr]
          have hrest : addJobEventListener rest jobId h =
              rest.map fun q => if q.1 = jobId then (q.1, q.2 ++ [h]) else q := by
            simp [addJobEventListener, hr]
          have := ih
          rw [hrest] at this
          simp only [addJobEventListener, hany, if_true, List.map_cons, if_neg hp]
          simpa [listenersFor, List.find?, hp] using this
        · have hrf : (rest.any fun q => q.1 = jobId) = false := by
            cases hB : rest.any fun q => q.1 = jobId
            · rfl
            · exact absurd hB hr
          have hany : ((p :: rest).any fun q => q.1 = jobId) = false := by
            simp [List.any_cons, hp, hrf]
          have hrest : addJobEventListener rest jobId h = rest ++ [(jobId, [h])] := by
            simp [addJobEventListener, hrf]
          have := ih
          rw [hrest] at this
          simp only [addJobEventListener, hany, Bool.false_eq_true, if_false,
            List.cons_append]
          simpa [listenersFor, List.find?, hp] using this

theorem foldl_handlers_id (job : JobRec) :
    ∀ (l : List JobEventCallback) (st : ArrayStore),
      (∀ f ∈ l, ∀ r s, (f r s).1 = s) →
      l.foldl (fun s f => (f job s).1) st = st
  | [], st, _ => rfl
  | f :: rest, st, h => by
      have h1 : (f job st).1 = st := h f (List.mem_cons_self f rest) job st
      have h2 := foldl_handlers_id job rest st
        fun g hg => h g (List.mem_cons_of_mem _ hg)
      simpa [h1] using h2

/-- C8 (amended): `emitJobEvent` invokes every currently subscribed handler
for the job's id synchronously, in subscription order
(`addJobEventListener` appends, and emission folds the handler list left to
right), passing the *shallow* copy `{ ...job }`.  Mutations the handler
performs on the received record itself are discarded and cannot change the
stored job; but the copy shares the nested objects by reference, so only
handlers that leave the shared store untouched leave the stored job's
resolved value unchanged (the counterexample
`shallow_copy_shares_nested_state` exhibits a handler that corrupts the
stored job's `sourceDocumentIds` through the shared array). -/
theorem emit_in_order_with_shallow_copy
    (registry : List (String × List JobEventCallback)) (jobId : String)
    (h : JobEventCallback) (job : JobRec) (st : ArrayStore) :
    (listenersFor (addJobEventListener registry jobId h) jobId =
      listenersFor registry jobId ++ [h]) ∧
    (∀ l₁ l₂, listenersFor registry job.id = l₁ ++ l₂ →
      emitJobEvent registry job st =
        l₂.foldl (fun s f => (f job s).1)
          (l₁.foldl (fun s f => (f job s).1) st)) ∧
    ((∀ f ∈ listenersFor registry job.id, ∀ r s, (f r s).1 = s) →
      emitJobEvent registry job st = st ∧
      resolvedJob job (emitJobEvent registry job st) = resolvedJob job st) := by
  refine ⟨listenersFor_add registry jobId h, ?_, ?_⟩
  · intro l₁ l₂ hsplit
    rw [emitJobEvent, hsplit, List.foldl_append]
  · intro hid
    have he : emitJobEvent registry job st = st :=
      foldl_handlers_id job _ st hid
    exact ⟨he, by rw [he]⟩

/-- Witness for C8 (amended): subscription appends the handler, and with no
subscribers an emission leaves the store untouched. -/
theorem emit_in_order_with_shallow_copy_witness :
    (listenersFor (addJobEventListener [] "job-1" pushHandler) "job-1" =
      listenersFor [] "job-1" ++ [pushHandler]) ∧
    emitJobEvent [] jobRec0 store0 = store0 :=
  ⟨(emit_in_order_with_shallow_copy [] "job-1" pushHandler jobRec0 store0).1,
   ((emit_in_order_with_shallow_copy [] "job-1" pushHandler jobRec0 store0).2.2
      fun f hf => absurd hf (by simp [listenersFor])).1⟩

/-- C8: refuted as stated.  `emitJobEvent` passes `{ ...job }`, a shallow
copy: the nested `sourceDocumentIds` array is shared by reference, so a
subscribed handler that pushes onto the array of the record it received
changes the Job Manager's stored job — after one emission the stored job's
resolved document list has gained the handler's element. -/
theorem shallow_copy_shares_nested_state :
    (emitJobEvent (addJobEventListener [] "job-1" pushHandler) jobRec0
        store0).arrays jobRec0.srcIdsRef = ["doc-1", "injected"] ∧
    resolvedJob jobRec0
        (emitJobEvent (addJobEventListener [] "job-1" pushHandler) jobRec0 store0)
      ≠ resolvedJob jobRec0 store0 := by
  constructor
  · rfl
  · intro hEq
    have h1 : (resolvedJob jobRec0
        (emitJobEvent (addJobEventListener [] "job-1" pushHandler) jobRec0
          store0)).2 = (resolvedJob jobRec0 store0).2 := by rw [hEq]
    have h2 : (["doc-1", "injected"] : List String) = ["doc-1"] := h1
    simp at h2

/-! ## C4 -/

theorem find?_key_of_nodup {α : Type} (key : α → String) :
    ∀ (l : List α), ((l.map key).Nodup) → ∀ a ∈ l,
      l.find? (fun x => key x = key a) = some a
  | [], _, a, ha => absurd ha (List.not_mem_nil a)
  | b :: rest, hn, a, ha => by
      rcases List.mem_cons.mp ha with rfl | ha'
      · simp [List.find?]
      · have hne : ¬ (key b = key a) := by
          intro hk
          have : key a ∈ rest.map key := List.mem_map_of_mem key ha'
          rw [← hk] at this
          exact (List.nodup_cons.mp (by simpa using hn)).1 this
        have := find?_key_of_nodup key rest (List.nodup_cons.mp (by simpa using hn)).2 a ha'
        simp [List.find?, hne, this]

theorem group_sublist {α β : Type} (f : α → List β) :
    ∀ (l : List α) (a : α), a ∈ l → List.Sublist (f a) (l.flatMap f)
  | [], a, ha => absurd ha (List.not_mem_nil a)
  | b :: rest, a, ha => by
      rcases List.mem_cons.mp ha with rfl | ha'
      · rw [List.flatMap_cons]
        exact List.sublist_append_left (f a) (rest.flatMap f)
      · refine (group_sublist f rest a ha').trans ?_
        rw [List.flatMap_cons]
        exact List.sublist_append_right (f b) (rest.flatMap f)

theorem two_mem_sublist {α : Type} :
    ∀ {l : List α} {x y : α}, x ∈ l → y ∈ l → x ≠ y →
      List.Sublist [x, y] l ∨ List.Sublist [y, x] l := by
  intro l
  induction l with
  | nil => intro x y hx; exact absurd hx (List.not_mem_nil x)
  | cons a rest ih =>
      intro x y hx hy hxy
      rcases List.mem_cons.mp hx with rfl | hx'
      · have hy' : y ∈ rest := by
          rcases List.mem_cons.mp hy with rfl | hy'
          · exact absurd rfl hxy
          · exact hy'
        exact Or.inl (List.cons_sublist_cons.mpr (List.singleton_sublist.mpr hy'))
      · rcases List.mem_cons.mp hy with rfl | hy'
        · exact Or.inr (List.cons_sublist_cons.mpr (List.singleton_sublist.mpr hx'))
        · rcases ih hx' hy' hxy with h | h
          · exact Or.inl (h.trans (List.sublist_cons_self a rest))
          · exact Or.inr (h.trans (List.sublist_cons_self a rest))

theorem depthTwo_map_id (t : Template) :
    flattenedSections t = (depthTwoSections t).map TemplateSection.id := by
  simp only [flattenedSections, depthTwoSections, List.map_flatMap]
  rfl

theorem findSectionById_depth2_aux :
    ∀ (L : List TemplateSection),
      ((L.flatMap fun s => s.id :: s.children.map fun c => c.id).Nodup) →
      ∀ sec ∈ L.flatMap fun s => s :: s.children,
        L.findSome? (fun s => if s.id = sec.id then some s
          else s.children.find? fun ch => ch.id = sec.id) = some sec := by
  intro L
  induction L with
  | nil => intro _ sec hsec; simp at hsec
  | cons a rest ih =>
      intro hnodup sec hsec
      simp only [List.flatMap_cons] at hnodup hsec
      have hsplit := List.nodup_append.mp hnodup
      rcases List.mem_append.mp hsec with hsec' | hsec'
      · rcases List.mem_cons.mp hsec' with rfl | hch
        · simp [List.findSome?_cons]
        · have hane : ¬ (a.id = sec.id) := by
            intro h
            have : sec.id ∈ a.children.map fun c => c.id :=
              List.mem_map_of_mem _ hch
            rw [← h] at this
            exact (List.nodup_cons.mp hsplit.1).1 this
          have hfind : a.children.find? (fun ch => ch.id = sec.id) = some sec :=
            find?_key_of_nodup TemplateSection.id a.children
              (by simpa using (List.nodup_cons.mp hsplit.1).2) sec hch
          simp [List.findSome?_cons, hane, hfind]
      · have hidmem : sec.id ∈ rest.flatMap fun s =>
            s.id :: s.children.map fun c => c.id := by
          have hmapflat : (rest.flatMap fun s => s :: s.children).map
              TemplateSection.id =
              rest.flatMap fun s => s.id :: s.children.map fun c => c.id := by
            simp only [List.map_flatMap]; rfl
          rw [← hmapflat]
          exact List.mem_map_of_mem _ hsec'
        have hane : ¬ (a.id = sec.id) := by
          intro h
          rw [← h] at hidmem
          exact hsplit.2.2 (List.mem_cons_self _ _) hidmem
        have hchnone : a.children.find? (fun ch => ch.id = sec.id) = none := by
          rw [List.find?_eq_none]
          intro ch hch
          simp only [decide_eq_true_eq]
          intro h
          rw [← h] at hidmem
          exact hsplit.2.2 (List.mem_cons_of_mem _ (List.mem_map_of_mem _ hch))
            hidmem
        have hrest := ih hsplit.2.1 sec hsec'
        simp [List.findSome?_cons, hane, hchnone, hrest]

theorem findSectionById_depth2 (t : Template)
    (hnodup : (flattenedSections t).Nodup) :
    ∀ sec ∈ depthTwoSections t, findSectionById t sec.id = some sec := by
  intro sec hsec
  exact findSectionById_depth2_aux t.sectionsOrEmpty
    (by simpa [flattenedSections] using hnodup) sec
    (by simpa [depthTwoSections] using hsec)

theorem genLoop_spec (gen : String → GeneratedSection) (total : ℕ) :
    ∀ (l : List String) (k : ℕ),
      ((genLoop gen total l k).map fun e => e.1) = l.map gen ∧
      ((genLoop gen total l k).map fun e => e.2) =
        (List.range l.length).map
          fun i => ((((k + i : ℕ) : ℚ) + 1) / (total : ℚ)) * 100
  | [], k => by simp [genLoop]
  | sid :: rest, k => by
      have ih := genLoop_spec gen total rest (k + 1)
      constructor
      · simp [genLoop, ih.1]
      · simp only [genLoop, List.map_cons, List.length_cons, ih.2]
        rw [List.range_succ_eq_map, List.map_cons, List.map_map]
        refine List.cons_eq_cons.mpr ⟨by norm_num, ?_⟩
        refine List.map_congr_left fun i _ => ?_
        simp only [Function.comp]
        have h1 : k + 1 + i = k + (i + 1) := by omega
        rw [h1]

/-- C4 (amended): `generateCompleteContent` flattens only the template's
top-level sections and their immediate children: assuming the section ids
are distinct, the flattened sequence is exactly the depth-≤-2 nodes, each
appearing exactly once (deeper descendants are dropped — see
`deep_section_dropped_from_generation`).  The generation order is a
permutation of that sequence, stably sorted by heading level ascending;
whenever children carry strictly larger levels than their parents (as the
template parser produces), every top-level section precedes each of its
children.  Sections are generated sequentially in that order and after the
`k`-th section the reported progress is `((k+1) / total) * 100` with
`total` the number of depth-≤-2 nodes. -/
theorem flatten_sort_and_progress (t : Template)
    (gen : String → GeneratedSection)
    (hnodup : (flattenedSections t).Nodup) :
    flattenedSections t = (depthTwoSections t).map TemplateSection.id ∧
    (∀ s ∈ depthTwoSections t, (flattenedSections t).count s.id = 1) ∧
    (sortedSections t).Perm (flattenedSections t) ∧
    (sortedSections t).Pairwise (fun a b => levelOf t a ≤ levelOf t b) ∧
    (∀ s ∈ t.sectionsOrEmpty, ∀ c ∈ s.children,
      (∀ s' ∈ t.sectionsOrEmpty, ∀ c' ∈ s'.children,
        s'.level.getD 0 < c'.level.getD 0) →
      List.Sublist [s.id, c.id] (sortedSections t)) ∧
    ((generateCompleteContentRun gen t).map fun e => e.1) =
      (sortedSections t).map gen ∧
    ((generateCompleteContentRun gen t).map fun e => e.2) =
      (List.range (flattenedSections t).length).map
        fun k : ℕ => (((k : ℚ) + 1) / ((flattenedSections t).length : ℚ)) * 100 := by
  haveI hTot : IsTotal String fun a b => levelOf t a ≤ levelOf t b :=
    ⟨fun a b => Nat.le_total _ _⟩
  haveI hTrans : IsTrans String fun a b => levelOf t a ≤ levelOf t b :=
    ⟨fun a b c h1 h2 => Nat.le_trans h1 h2⟩
  have hperm : (sortedSections t).Perm (flattenedSections t) :=
    List.perm_insertionSort _ _
  have hsorted : (sortedSections t).Pairwise
      fun a b => levelOf t a ≤ levelOf t b :=
    List.sorted_insertionSort _ _
  refine ⟨depthTwo_map_id t, ?_, hperm, hsorted, ?_, ?_, ?_⟩
  · intro s hs
    have hmem : s.id ∈ flattenedSections t := by
      rw [depthTwo_map_id t]
      exact List.mem_map_of_mem _ hs
    exact List.count_eq_one_of_mem hnodup hmem
  · intro s hs c hc hlvl
    have hsd2 : s ∈ depthTwoSections t :=
      List.mem_flatMap.mpr ⟨s, hs, List.mem_cons_self _ _⟩
    have hcd2 : c ∈ depthTwoSections t :=
      List.mem_flatMap.mpr ⟨s, hs, List.mem_cons_of_mem _ hc⟩
    have hfs := findSectionById_depth2 t hnodup s hsd2
    have hfc := findSectionById_depth2 t hnodup c hcd2
    have hlvls : levelOf t s.id = s.level.getD 0 := by simp [levelOf, hfs]
    have hlvlc : levelOf t c.id = c.level.getD 0 := by simp [levelOf, hfc]
    have hgroup : List.Sublist (s.id :: s.children.map fun x => x.id)
        (flattenedSections t) :=
      group_sublist (fun s => s.id :: s.children.map fun x => x.id)
        t.sectionsOrEmpty s hs
    have hgnodup := hgroup.nodup hnodup
    have hne : s.id ≠ c.id := by
      intro h
      exact (List.nodup_cons.mp hgnodup).1 (h ▸ List.mem_map_of_mem _ hc)
    have hsmem : s.id ∈ sortedSections t := by
      rw [hperm.mem_iff, depthTwo_map_id t]
      exact List.mem_map_of_mem _ hsd2
    have hcmem : c.id ∈ sortedSections t := by
      rw [hperm.mem_iff, depthTwo_map_id t]
      exact List.mem_map_of_mem _ hcd2
    rcases two_mem_sublist hsmem hcmem hne with h | h
    · exact h
    · exfalso
      have hpw := hsorted.sublist h
      have hle : levelOf t c.id ≤ levelOf t s.id := by
        have := (List.pairwise_cons.mp hpw).1
        exact this s.id (List.mem_singleton.mpr rfl)
      rw [hlvls, hlvlc] at hle
      exact absurd (hlvl s hs c hc) (by omega)
  · exact (genLoop_spec gen (flattenedSections t).length (sortedSections t) 0).1
  · have h := (genLoop_spec gen (flattenedSections t).length
      (sortedSections t) 0).2
    rw [generateCompleteContentRun, h, hperm.length_eq]
    exact List.map_congr_left fun i _ => by rw [Nat.zero_add]

/-- Witness for C4 (amended): the depth-3 sample template (ids `a`, `b`,
`c`) — the flattened sequence equals the depth-≤-2 ids and the generation
order is sorted by level. -/
theorem flatten_sort_and_progress_witness :
    flattenedSections tplDeep = (depthTwoSections tplDeep).map TemplateSection.id ∧
    (sortedSections tplDeep).Pairwise
      fun a b => levelOf tplDeep a ≤ levelOf tplDeep b :=
  ⟨(flatten_sort_and_progress tplDeep gen0 (by decide)).1,
   (flatten_sort_and_progress tplDeep gen0 (by decide)).2.2.2.1⟩

/-- C4: refuted as stated.  On the template `# A / ## B / ### C` (a level-3
subsection nested under a level-2 subsection, exactly what the structure
parser emits), the section node `c` is part of the forest but never appears
in the flattened sequence, so it is never generated: the claim that *every*
section node of the forest appears exactly once is false. -/
theorem deep_section_dropped_from_generation :
    "c" ∈ (Template.allSectionNodes tplDeep).map TemplateSection.id ∧
    "c" ∉ flattenedSections tplDeep ∧
    "c" ∉ (generateCompleteContentRun gen0 tplDeep).map
      fun e => e.1.templateSectionId := by
  decide

/-! ## C5 -/

theorem head_dropWhile_false {α : Type} (p : α → Bool) :
    ∀ (l : List α) {d : α} {rest : List α},
      l.dropWhile p = d :: rest → p d = false
  | [], d, rest, h => by simp [List.dropWhile] at h
  | a :: t, d, rest, h => by
      by_cases hp : p a = true
      · rw [List.dropWhile_cons_of_pos hp] at h
        exact head_dropWhile_false p t h
      · rw [List.dropWhile_cons_of_neg hp] at h
        cases h
        exact Bool.eq_false_iff.mpr hp

/-- Stability of the stable sort, in strengthened pairwise form: sorting by
score descending turns any pairwise input invariant `P` into "strictly
larger score, or equal scores and `P` in input order". -/
theorem insertionSort_pairwise_lex {α : Type} (score : α → ℕ)
    (P : α → α → Prop) :
    ∀ (l : List α), l.Pairwise P →
      (l.insertionSort fun a b => score b ≤ score a).Pairwise
        fun a b => score b < score a ∨ (score a = score b ∧ P a b) := by
  intro l
  induction l with
  | nil => intro _; simp [List.insertionSort]
  | cons a t ih =>
      intro hpw
      obtain ⟨ha, ht⟩ := List.pairwise_cons.mp hpw
      have hS := ih ht
      set Q : α → α → Prop :=
        fun x y => score y < score x ∨ (score x = score y ∧ P x y) with hQ
      set S := t.insertionSort fun x y => score y ≤ score x with hSdef
      have hmemS : ∀ x ∈ S, x ∈ t := fun x hx =>
        (List.mem_insertionSort _).mp hx
      rw [List.insertionSort,
        List.orderedInsert_eq_take_drop (fun x y => score y ≤ score x) a S]
      set p : α → Bool := fun b => decide ¬ (score b ≤ score a) with hp
      have hTD : S.takeWhile p ++ S.dropWhile p = S :=
        List.takeWhile_append_dropWhile p S
      have hSpw : (S.takeWhile p ++ S.dropWhile p).Pairwise Q := by
        rw [hTD]; exact hS
      have hcross := (List.pairwise_append.mp hSpw).2.2
      have hT : ∀ x ∈ S.takeWhile p, score a < score x := by
        intro x hx
        have := List.mem_takeWhile_imp hx
        rw [hp] at this
        simp only [decide_eq_true_eq] at this
        omega
      have hD : ∀ x ∈ S.dropWhile p, score x ≤ score a := by
        rcases hdrop : S.dropWhile p with _ | ⟨d0, rest⟩
        · intro x hx; simp at hx
        · intro x hx
          have hd0 : score d0 ≤ score a := by
            have := head_dropWhile_false p S hdrop
            rw [hp] at this
            simpa using this
          rcases List.mem_cons.mp hx with rfl | hx'
          · exact hd0
          · have hpwD : (S.dropWhile p).Pairwise Q :=
              hS.sublist (List.dropWhile_sublist p)
            rw [hdrop] at hpwD
            have := (List.pairwise_cons.mp hpwD).1 x hx'
            rcases this with h | ⟨h, _⟩ <;> omega
      rw [List.pairwise_append]
      refine ⟨hS.sublist (List.takeWhile_sublist p), ?_, ?_⟩
      · rw [List.pairwise_cons]
        refine ⟨?_, hS.sublist (List.dropWhile_sublist p)⟩
        intro d hd
        have hle := hD d hd
        rcases Nat.lt_or_ge (score d) (score a) with h | h
        · exact Or.inl h
        · have heq : score a = score d := by omega
          exact Or.inr ⟨heq, ha d (hmemS d ((List.dropWhile_sublist p).mem hd))⟩
      · intro x hx y hy
        rcases List.mem_cons.mp hy with rfl | hy'
        · exact Or.inl (hT x hx)
        · exact hcross x hx y hy'

theorem pairwise_pair_sublist {α : Type} (f : α → String) :
    ∀ (l : List α), l.Pairwise fun x y => List.Sublist [f x, f y] (l.map f)
  | [] => List.Pairwise.nil
  | a :: t => by
      rw [List.pairwise_cons]
      constructor
      · intro y hy
        exact List.cons_sublist_cons.mpr
          (List.singleton_sublist.mpr (List.mem_map_of_mem f hy))
      · exact (pairwise_pair_sublist f t).imp
          fun h => h.trans (List.sublist_cons_self _ _)

theorem docScores_foldl_aux (sectionTitle sectionContent : String) :
    ∀ (docs : List SourceDocument) (m : List (String × ℕ)),
      ((docs.map fun d => d.id).Nodup) →
      (∀ d ∈ docs, (m.any fun p => p.1 = d.id) = false) →
      docs.foldl (fun m doc =>
          upsertScore m doc.id (scoreDoc sectionTitle sectionContent doc)) m
        = m ++ docs.map fun d => (d.id, scoreDoc sectionTitle sectionContent d)
  | [], m, _, _ => by simp
  | d :: rest, m, hnodup, hfresh => by
      have hd : (m.any fun p => p.1 = d.id) = false :=
        hfresh d (List.mem_cons_self _ _)
      have hup : upsertScore m d.id (scoreDoc sectionTitle sectionContent d) =
          m ++ [(d.id, scoreDoc sectionTitle sectionContent d)] := by
        simp [upsertScore, hd]
      have hrest : ∀ e ∈ rest,
          ((m ++ [(d.id, scoreDoc sectionTitle sectionContent d)]).any
            fun p => p.1 = e.id) = false := by
        intro e he
        rw [List.any_append]
        have h1 : (m.any fun p => p.1 = e.id) = false :=
          hfresh e (List.mem_cons_of_mem _ he)
        have h2 : ¬ (d.id = e.id) := by
          intro h
          have : d.id ∈ rest.map fun x => x.id := h ▸ List.mem_map_of_mem _ he
          exact (List.nodup_cons.mp (by simpa using hnodup)).1 this
        simp [h1, h2]
      have ih := docScores_foldl_aux sectionTitle sectionContent rest
        (m ++ [(d.id, scoreDoc sectionTitle sectionContent d)])
        (List.nodup_cons.mp (by simpa using hnodup)).2 hrest
      simp only [List.foldl_cons, hup, ih, List.map_cons]
      simp

theorem docScores_eq_map (sectionTitle sectionContent : String)
    (docs : List SourceDocument) (hnodup : (docs.map fun d => d.id).Nodup) :
    docScores sectionTitle sectionContent docs =
      docs.map fun d => (d.id, scoreDoc sectionTitle sectionContent d) := by
  simpa using docScores_foldl_aux sectionTitle sectionContent docs []
    hnodup (by simp)

mutual
theorem processSection_eq_allSections (docs : List SourceDocument) :
    ∀ s : TemplateSection, processSection docs s =
      (allSections s).map fun x => (x.id, rankedDocsFor x.title x.content docs)
  | .mk i ti c ty lv children => by
      rw [processSection, allSections]
      simp [processSectionList_eq_allSectionsList docs children,
        TemplateSection.title, TemplateSection.content, TemplateSection.id]

theorem processSectionList_eq_allSectionsList (docs : List SourceDocument) :
    ∀ L : List TemplateSection, processSectionList docs L =
      (allSectionsList L).map fun x => (x.id, rankedDocsFor x.title x.content docs)
  | [] => rfl
  | s :: rest => by
      rw [processSectionList, allSectionsList]
      simp [processSection_eq_allSections docs s,
        processSectionList_eq_allSectionsList docs rest]
end

theorem matchDocumentsToSections_eq (t : Template) (docs : List SourceDocument) :
    matchDocumentsToSections t docs =
      (Template.allSectionNodes t).map
        fun x => (x.id, rankedDocsFor x.title x.content docs) := by
  rw [matchDocumentsToSections, Template.allSectionNodes]
  exact processSectionList_eq_allSectionsList docs t.sectionsOrEmpty

theorem mapGet_of_nodup_keys (M : List TemplateSection)
    (v : TemplateSection → List String)
    (hn : (M.map TemplateSection.id).Nodup) (sec : TemplateSection)
    (hsec : sec ∈ M) :
    mapGet (M.map fun x => (x.id, v x)) sec.id = some (v sec) := by
  unfold mapGet
  have hrev : (M.map fun x => (x.id, v x)).reverse =
      M.reverse.map fun x => (x.id, v x) := (List.map_reverse _ _).symm
  rw [hrev]
  have ha : (sec.id, v sec) ∈ M.reverse.map fun x => (x.id, v x) :=
    List.mem_map_of_mem _ (List.mem_reverse.mpr hsec)
  have hkeys : ((M.reverse.map fun x => (x.id, v x)).map Prod.fst).Nodup := by
    rw [List.map_map]
    have h0 : (Prod.fst ∘ fun x : TemplateSection => (x.id, v x)) =
        TemplateSection.id := rfl
    rw [h0, List.map_reverse]
    exact List.nodup_reverse.mpr hn
  have hfind' : List.find? (fun p : String × List String => p.1 = sec.id)
      (M.reverse.map fun x => (x.id, v x)) = some (sec.id, v sec) :=
    find?_key_of_nodup Prod.fst _ hkeys (sec.id, v sec) ha
  rw [hfind']
  rfl

theorem scoreOfId_of_mem (sectionTitle sectionContent : String)
    (docs : List SourceDocument) (hdocs : (docs.map fun d => d.id).Nodup)
    (e : SourceDocument) (he : e ∈ docs) :
    scoreOfId sectionTitle sectionContent docs e.id =
      scoreDoc sectionTitle sectionContent e := by
  unfold scoreOfId
  have h' : docs.find? (fun d => d.id = e.id) = some e :=
    find?_key_of_nodup SourceDocument.id docs hdocs e he
  rw [h']

/-- C5: for every section of the forest (all depths) with distinct section
ids, and distinct document ids, the matcher's map carries exactly the
section's ranked list; a document's id is in that list iff its score — +5
for a lowercased-title substring hit plus +1 per matching extracted keyword,
as computed by `scoreDoc` — is positive; and the list is ordered by strictly
descending score, with ties broken by the documents' input order. -/
theorem matcher_scores_and_ranking
    (t : Template) (docs : List SourceDocument) (sec : TemplateSection)
    (hdocs : (docs.map fun d => d.id).Nodup)
    (hsecs : ((Template.allSectionNodes t).map TemplateSection.id).Nodup)
    (hsec : sec ∈ Template.allSectionNodes t) :
    mapGet (matchDocumentsToSections t docs) sec.id =
      some (rankedDocsFor sec.title sec.content docs) ∧
    (∀ d ∈ docs, (d.id ∈ rankedDocsFor sec.title sec.content docs ↔
      0 < scoreDoc sec.title sec.content d)) ∧
    (rankedDocsFor sec.title sec.content docs).Pairwise
      fun x y => scoreOfId sec.title sec.content docs y <
          scoreOfId sec.title sec.content docs x ∨
        (scoreOfId sec.title sec.content docs x =
          scoreOfId sec.title sec.content docs y ∧
         List.Sublist [x, y] (docs.map fun d => d.id)) := by
  set ti := sec.title
  set co := sec.content
  set pairs := docs.map fun d => (d.id, scoreDoc ti co d) with hpairsdef
  have hpairs : docScores ti co docs = pairs := docScores_eq_map ti co docs hdocs
  have hperm : (pairs.insertionSort fun a b => b.2 ≤ a.2).Perm pairs :=
    List.perm_insertionSort _ _
  have hmem_pairs : ∀ p ∈ pairs, ∃ e ∈ docs, p = (e.id, scoreDoc ti co e) := by
    intro p hp
    obtain ⟨e, he, rfl⟩ := List.mem_map.mp hp
    exact ⟨e, he, rfl⟩
  refine ⟨?_, ?_, ?_⟩
  · rw [matchDocumentsToSections_eq t docs]
    exact mapGet_of_nodup_keys _ _ hsecs sec hsec
  · intro d hd
    constructor
    · intro hmem
      rw [rankedDocsFor, hpairs, sortedDocs] at hmem
      obtain ⟨p, hp, hpd⟩ := List.mem_map.mp hmem
      have hp2 := List.mem_filter.mp hp
      have hpin : p ∈ pairs := hperm.mem_iff.mp hp2.1
      obtain ⟨e, he, rfl⟩ := hmem_pairs p hpin
      have : e = d := List.inj_on_of_nodup_map hdocs he hd hpd
      subst this
      simpa using hp2.2
    · intro hscore
      rw [rankedDocsFor, hpairs, sortedDocs]
      refine List.mem_map.mpr ⟨(d.id, scoreDoc ti co d), ?_, rfl⟩
      refine List.mem_filter.mpr ⟨?_, by simpa using hscore⟩
      exact hperm.mem_iff.mpr (List.mem_map_of_mem _ hd)
  · have hP : pairs.Pairwise fun p q =>
        List.Sublist [p.1, q.1] (pairs.map Prod.fst) :=
      pairwise_pair_sublist Prod.fst pairs
    have hfst : pairs.map Prod.fst = docs.map fun d => d.id := by
      rw [hpairsdef, List.map_map]
      rfl
    rw [hfst] at hP
    have hQ := insertionSort_pairwise_lex Prod.snd
      (fun p q => List.Sublist [p.1, q.1] (docs.map fun d => d.id)) pairs hP
    have hQ' : ((pairs.insertionSort fun a b => b.2 ≤ a.2).filter
        fun p => 0 < p.2).Pairwise
        fun p q => q.2 < p.2 ∨ (p.2 = q.2 ∧
          List.Sublist [p.1, q.1] (docs.map fun d => d.id)) :=
      hQ.sublist (List.filter_sublist _)
    rw [rankedDocsFor, hpairs, sortedDocs]
    rw [List.pairwise_map]
    refine hQ'.imp_of_mem ?_
    intro p q hp hq hpq
    have hpin : p ∈ pairs :=
      hperm.mem_iff.mp ((List.filter_sublist _).mem hp)
    have hqin : q ∈ pairs :=
      hperm.mem_iff.mp ((List.filter_sublist _).mem hq)
    obtain ⟨e, he, rfl⟩ := hmem_pairs p hpin
    obtain ⟨f, hf, rfl⟩ := hmem_pairs q hqin
    rw [show (e.id, scoreDoc ti co e).1 = e.id from rfl,
      show (f.id, scoreDoc ti co f).1 = f.id from rfl,
      scoreOfId_of_mem ti co docs hdocs e he,
      scoreOfId_of_mem ti co docs hdocs f hf]
    exact hpq

/-- Witness for C5: the `Executive Summary` scenario — one section, two
documents, one containing the exact section title; the map entry, the
membership equivalence and the ordering at that concrete input. -/
theorem matcher_scores_and_ranking_witness :
    mapGet (matchDocumentsToSections tplES [doc0, docB])
        (TemplateSection.mk "s1" "Executive Summary" "" .heading (some 1) []).id =
      some (rankedDocsFor "Executive Summary" "" [doc0, docB]) ∧
    (∀ d ∈ [doc0, docB],
      (d.id ∈ rankedDocsFor "Executive Summary" "" [doc0, docB] ↔
        0 < scoreDoc "Executive Summary" "" d)) := by
  have h := matcher_scores_and_ranking tplES [doc0, docB]
    (TemplateSection.mk "s1" "Executive Summary" "" .heading (some 1) [])
    (by decide) (by decide)
    (by rw [show Template.allSectionNodes tplES =
          [TemplateSection.mk "s1" "Executive Summary" "" .heading (some 1) []]
        from rfl]
        exact List.mem_singleton.mpr rfl)
  exact ⟨h.1, h.2.1⟩

/-! ## C6 -/

theorem mem_filterMap_find_id (docs : List SourceDocument) (ranked : List String) :
    ∀ x ∈ ranked.filterMap fun i => docs.find? fun d => d.id = i,
      x.id ∈ ranked ∧ x ∈ docs := by
  intro x hx
  obtain ⟨i, hi, hfind⟩ := List.mem_filterMap.mp hx
  have hxid : x.id = i := by simpa using List.find?_some hfind
  exact ⟨hxid ▸ hi, List.mem_of_find?_eq_some hfind⟩

theorem filterMap_find_pairwise (docs : List SourceDocument) :
    ∀ (ranked : List String), ranked.Nodup →
      (ranked.filterMap fun i => docs.find? fun d => d.id = i).Pairwise
        fun x y => ranked.indexOf x.id < ranked.indexOf y.id
  | [], _ => by simp
  | i :: rest, hn => by
      obtain ⟨hni, hnr⟩ := List.nodup_cons.mp hn
      have ihp := filterMap_find_pairwise docs rest hnr
      have hlift : (rest.filterMap fun i => docs.find? fun d => d.id = i).Pairwise
          fun x y => (i :: rest).indexOf x.id < (i :: rest).indexOf y.id := by
        refine ihp.imp_of_mem ?_
        intro x y hx hy hxy
        have hxr := (mem_filterMap_find_id docs rest x hx).1
        have hyr := (mem_filterMap_find_id docs rest y hy).1
        have hxne : i ≠ x.id := fun h => hni (h ▸ hxr)
        have hyne : i ≠ y.id := fun h => hni (h ▸ hyr)
        rw [List.indexOf_cons_ne _ hxne, List.indexOf_cons_ne _ hyne]
        omega
      cases hfind : docs.find? fun d => d.id = i with
      | none => simpa [List.filterMap_cons, hfind] using hlift
      | some d =>
          have hdid : d.id = i := by simpa using List.find?_some hfind
          simp only [List.filterMap_cons, hfind]
          rw [List.pairwise_cons]
          refine ⟨?_, hlift⟩
          intro y hy
          have hyr := (mem_filterMap_find_id docs rest y hy).1
          have hyne : i ≠ y.id := fun h => hni (h ▸ hyr)
          rw [hdid, List.indexOf_cons_self, List.indexOf_cons_ne _ hyne]
          omega

theorem filter_contains_eq_filterMap (docs : List SourceDocument)
    (ranked : List String) (hdocs : (docs.map fun d => d.id).Nodup)
    (hranked : ranked.Nodup) :
    (docs.filter fun doc => ranked.contains doc.id).insertionSort
        (fun a b => ranked.indexOf a.id ≤ ranked.indexOf b.id) =
      ranked.filterMap fun i => docs.find? fun d => d.id = i := by
  haveI : IsTotal SourceDocument
      fun a b => ranked.indexOf a.id ≤ ranked.indexOf b.id :=
    ⟨fun a b => Nat.le_total _ _⟩
  haveI : IsTrans SourceDocument
      fun a b => ranked.indexOf a.id ≤ ranked.indexOf b.id :=
    ⟨fun a b c h1 h2 => Nat.le_trans h1 h2⟩
  haveI : IsAntisymm SourceDocument
      fun a b => ranked.indexOf a.id < ranked.indexOf b.id :=
    ⟨fun a b h1 h2 => absurd h2 (Nat.lt_asymm h1)⟩
  have hdnodup : docs.Nodup := List.Nodup.of_map _ hdocs
  set L := docs.filter fun doc => ranked.contains doc.id with hLdef
  set SL := L.insertionSort
    (fun a b => ranked.indexOf a.id ≤ ranked.indexOf b.id) with hSLdef
  set RD := ranked.filterMap fun i => docs.find? fun d => d.id = i with hRDdef
  have hpermL : SL.Perm L := List.perm_insertionSort _ _
  have hLnodup : L.Nodup := hdnodup.filter _
  have hmemL : ∀ x, x ∈ L ↔ (x ∈ docs ∧ x.id ∈ ranked) := by
    intro x
    rw [hLdef, List.mem_filter]
    simp
  have hmemRD : ∀ x, x ∈ RD ↔ (x ∈ docs ∧ x.id ∈ ranked) := by
    intro x
    constructor
    · intro hx
      have h := mem_filterMap_find_id docs ranked x hx
      exact ⟨h.2, h.1⟩
    · rintro ⟨hxd, hxr⟩
      refine List.mem_filterMap.mpr ⟨x.id, hxr, ?_⟩
      exact find?_key_of_nodup SourceDocument.id docs hdocs x hxd
  have hpwRD : RD.Pairwise fun x y =>
      ranked.indexOf x.id < ranked.indexOf y.id :=
    filterMap_find_pairwise docs ranked hranked
  have hRDnodup : RD.Nodup :=
    hpwRD.imp fun {a b} h => fun heq => by rw [heq] at h; omega
  have hSLnodup : SL.Nodup := (hpermL.nodup_iff).mpr hLnodup
  have hsortedSL : SL.Pairwise fun a b =>
      ranked.indexOf a.id ≤ ranked.indexOf b.id :=
    List.sorted_insertionSort _ _
  have hpwSL : SL.Pairwise fun x y =>
      ranked.indexOf x.id < ranked.indexOf y.id := by
    refine (hsortedSL.and hSLnodup).imp_of_mem ?_
    intro x y hx hy hxy
    have hxL := hpermL.mem_iff.mp hx
    have hyL := hpermL.mem_iff.mp hy
    have hxid : x.id ∈ ranked := ((hmemL x).mp hxL).2
    have hyid : y.id ∈ ranked := ((hmemL y).mp hyL).2
    have hidne : x.id ≠ y.id := by
      intro h
      exact hxy.2 (List.inj_on_of_nodup_map hdocs ((hmemL x).mp hxL).1
        ((hmemL y).mp hyL).1 h)
    have := (List.indexOf_inj hxid hyid).not.mpr hidne
    omega
  have hperm : SL.Perm RD := by
    refine hpermL.trans ?_
    exact (List.perm_ext_iff_of_nodup hLnodup hRDnodup).mpr
      fun x => (hmemL x).trans (hmemRD x).symm
  exact List.eq_of_perm_of_sorted hperm hpwSL hpwRD

theorem candidateDocs_eq (docs : List SourceDocument) (ranked : List String)
    (hdocs : (docs.map fun d => d.id).Nodup) (hranked : ranked.Nodup) :
    candidateDocs docs ranked =
      (let rankedDocs := ranked.filterMap fun i => docs.find? fun d => d.id = i
       if rankedDocs.length < 3 then
         rankedDocs ++
           (docs.filter fun d => !ranked.contains d.id).take (3 - rankedDocs.length)
       else rankedDocs) := by
  unfold candidateDocs
  rw [filter_contains_eq_filterMap docs ranked hdocs hranked]

theorem candidateDocs_length (docs : List SourceDocument) (ranked : List String)
    (h3 : 3 ≤ docs.length) : 3 ≤ (candidateDocs docs ranked).length := by
  unfold candidateDocs
  have hsplit := (List.filter_append_perm
    (fun doc => ranked.contains doc.id) docs).length_eq
  rw [List.length_append] at hsplit
  have hlen := List.length_insertionSort
    (fun a b : SourceDocument => ranked.indexOf a.id ≤ ranked.indexOf b.id)
    (docs.filter fun doc => ranked.contains doc.id)
  by_cases hc : ((docs.filter fun doc => ranked.contains doc.id).insertionSort
      fun a b => ranked.indexOf a.id ≤ ranked.indexOf b.id).length < 3
  · simp only [hc, if_true, List.length_append, List.length_take]
    omega
  · simp only [hc, if_false]
    omega

/-- C6: `generateSectionContent` selects as candidates the
relevance-ranked documents for the section in ranked order (the
stable sort by rank position resolves, under distinct ids, to the ranked
ids in order), appending — when fewer than 3 are ranked — documents not
already selected in original input order until 3 are reached or the pool is
exhausted; whenever at least 3 source documents exist, at least 3
candidates are selected, and each candidate is recorded as a
`SourceReference` in the produced section. -/
theorem generateSection_candidates
    (llm : String → TemplateSection → ContentMetadata → String) (newId : String)
    (t : Template) (docs : List SourceDocument) (sectionId : String)
    (metadata : ContentMetadata) (documentMatches : List (String × List String))
    (hdocs : (docs.map fun d => d.id).Nodup)
    (hranked : ((mapGet documentMatches sectionId).getD []).Nodup)
    (sec : TemplateSection)
    (hfind : findSectionScan sectionId t.sectionsOrEmpty none = some sec) :
    candidateDocs docs ((mapGet documentMatches sectionId).getD []) =
      (let ranked := (mapGet documentMatches sectionId).getD []
       let rankedDocs := ranked.filterMap fun i => docs.find? fun d => d.id = i
       if rankedDocs.length < 3 then
         rankedDocs ++
           (docs.filter fun d => !ranked.contains d.id).take (3 - rankedDocs.length)
       else rankedDocs) ∧
    (3 ≤ docs.length →
      3 ≤ (candidateDocs docs ((mapGet documentMatches sectionId).getD [])).length) ∧
    generateSectionContent llm newId t docs sectionId metadata documentMatches =
      .ok { id := newId
            templateSectionId := sec.id
            title := sec.title
            content := llm (relevantSourceContent
              (candidateDocs docs ((mapGet documentMatches sectionId).getD [])))
              sec metadata
            type := sec.type
            sourceReferences :=
              (candidateDocs docs
                ((mapGet documentMatches sectionId).getD [])).map docReference
            reviewStatus := .pending } := by
  refine ⟨candidateDocs_eq docs _ hdocs hranked,
    fun h3 => candidateDocs_length docs _ h3, ?_⟩
  simp [generateSectionContent, hfind]

/-- Witness for C6: with 3 documents, an empty relevance map (every score
zero) and the `Executive Summary` template section, at least 3 candidates
are still selected. -/
theorem generateSection_candidates_witness :
    3 ≤ (candidateDocs [doc0, docB, docC] ((mapGet [] "s1").getD [])).length :=
  (generateSection_candidates llm0 "g1" tplES [doc0, docB, docC] "s1" meta0 []
    (by decide) (by decide)
    (TemplateSection.mk "s1" "Executive Summary" "" .heading (some 1) [])
    rfl).2.1 (by decide)
